import Mathlib

/-!
# Verification of the structural pattern matcher
  (crates/ref_transform/src/matcher.rs)

This file gives a shallow embedding of the matcher in
`crates/ref_transform/src/matcher.rs` and proves the specified
properties about it.

The matcher consumes two external collaborators that are not part of the
matcher module itself:

* the syntax-tree node interface (`kind`, `kind_id`, `named`, `text`,
  `children`), modelled by the inductive type `Node` below;
* the meta-variable classifier `extract_meta_var` from the `meta_var`
  module, consumed opaquely by the matcher.  All matcher definitions are
  therefore parameterized by a classifier
  `classify : String → Option MetaVariable`, and every theorem quantifies
  over it; a small concrete classifier `testClassify` is used only to
  evaluate concrete instances.

The Rust code uses `&mut Env` for the capture environment; the embedding
threads the environment explicitly.  Internal `unwrap()` calls of the Rust
code are modelled by a distinguished `MRes.panicked` result so that their
unreachability is a provable statement rather than an artifact of the
embedding.
-/

/-- A concrete syntax tree node, carrying exactly the attributes the
matcher consumes: `kind`, `kind_id`, `named`, `text`, `children`. -/
inductive Node where
  | mk (kind : String) (kind_id : Nat) (named : Bool) (text : String)
       (children : List Node)

/-- Grammar-rule name of a node. -/
def Node.kind : Node → String
  | .mk k _ _ _ _ => k

/-- Grammar-rule identifier of a node. -/
def Node.kind_id : Node → Nat
  | .mk _ i _ _ _ => i

/-- Whether the node is a named (semantically meaningful) node. -/
def Node.named : Node → Bool
  | .mk _ _ nm _ _ => nm

/-- Source text spanned by the node. -/
def Node.text : Node → String
  | .mk _ _ _ t _ => t

/-- Immediate children in source order. -/
def Node.children : Node → List Node
  | .mk _ _ _ _ cs => cs

/-- A node is a leaf when it has no children. -/
def Node.is_leaf (n : Node) : Bool :=
  n.children.isEmpty

/-- The four meta-variable variants produced by the classifier
(`meta_var::MetaVariable`). -/
inductive MetaVariable where
  | Named (name : String)
  | Anonymous
  | Ellipsis
  | NamedEllipsis (name : String)

/-- The capture environment (`meta_var::Env`), a map from capture name to
bound node, modelled as an association list with `HashMap::insert`
semantics. -/
abbrev Env := List (String × Node)

/-- `HashMap::insert`: replace the value bound to an existing key,
otherwise add the binding. -/
def Env.insert (env : Env) (key : String) (val : Node) : Env :=
  match env with
  | [] => [(key, val)]
  | (k, v) :: rest =>
    if k = key then (key, val) :: rest else (k, v) :: Env.insert rest key val

/-- Look a key up in the environment. -/
def Env.lookup (env : Env) (key : String) : Option Node :=
  match env with
  | [] => none
  | (k, v) :: rest => if k = key then some v else Env.lookup rest key

/-- Result of one matcher call: either a normal result (the `Option<Node>`
return value together with the environment left behind by the `&mut Env`
argument), or `panicked`, marking that the Rust code would have hit an
internal `unwrap()` on `None`. -/
inductive MRes where
  | panicked : MRes
  | ok (res : Option Node) (env : Env) : MRes

mutual

/-- Size of a node's children; `sizeN` and `sizeL` together are the
termination measure of the matcher's recursion. -/
def sizeN : Node → Nat
  | .mk _ _ _ _ cs => sizeL cs

/-- Total size of a list of nodes (2 per node plus its children's size). -/
def sizeL : List Node → Nat
  | [] => 0
  | n :: rest => 2 + sizeN n + sizeL rest

end

theorem sizeL_cons (n : Node) (l : List Node) :
    sizeL (n :: l) = 2 + sizeN n + sizeL l := rfl

theorem sizeN_children (n : Node) : sizeN n = sizeL n.children := by
  cases n with
  | mk k i nm t cs => rfl

/-- The `while !goal_children.peek().unwrap().inner.is_named()` loop
(matcher.rs lines 82-88): skip unnamed goal children after an ellipsis. -/
def skipUnnamed : List Node → List Node
  | [] => []
  | n :: rest => if n.named then n :: rest else skipUnnamed rest

theorem sizeL_skipUnnamed (l : List Node) :
    sizeL (skipUnnamed l) ≤ sizeL l := by
  induction l with
  | nil => simp [skipUnnamed]
  | cons n rest ih =>
    by_cases hn : n.named
    · simp [skipUnnamed, hn]
    · simp only [skipUnnamed, hn, if_false, Bool.false_eq_true, sizeL_cons]
      omega

theorem skipUnnamed_sizeL (l : List Node) (g2 : Node) (g2tl : List Node)
    (h : skipUnnamed l = g2 :: g2tl) : 2 + sizeN g2 + sizeL g2tl ≤ sizeL l := by
  have hs := sizeL_skipUnnamed l
  rw [h, sizeL_cons] at hs
  exact hs

section Matcher

variable (classify : String → Option MetaVariable)

/-- `extract_var_from_node` (matcher.rs lines 126-129): classify the text
of a node. -/
def extract_var_from_node (goal : Node) : Option MetaVariable :=
  classify goal.text

/-- `match_leaf_meta_var` (matcher.rs lines 19-39): match a leaf goal node
against any candidate via its meta-variable classification; `none` result
means the goal is not a meta-variable (the `?` on `extract_var_from_node`). -/
def match_leaf_meta_var (goal : Node) (candidate : Node) (env : Env) :
    Option Node × Env :=
  match extract_var_from_node classify goal with
  | none => (none, env)
  | some (.Named name) => (some candidate, env.insert name candidate)
  | some .Anonymous => (some candidate, env)
  | some .Ellipsis => (some candidate, env)
  | some (.NamedEllipsis name) => (some candidate, env.insert name candidate)

/-- `is_ellipsis` (matcher.rs lines 41-46). -/
def is_ellipsis (node : Node) : Bool :=
  match extract_var_from_node classify node with
  | some .Ellipsis => true
  | some (.NamedEllipsis _) => true
  | _ => false


/-!
The four mutually recursive pieces of `match_node_exact` — the function
itself, the child-sequence loop (lines 70-124), the ellipsis forward-scan
loop (lines 96-109) and the common 1:1 step (lines 111-123) — are first
defined with an explicit fuel parameter (structural recursion on the
fuel); `fuel_suff` below proves that the termination measure of the
Rust recursion is sufficient fuel, and the fuel-free functions
`match_node_exact`, `matchSeq`, `matchScan`, `matchStep` are then defined
by supplying that fuel.  A `none` result means the fuel ran out (it never
does at the supplied fuel); `some .panicked` marks an internal `unwrap()`
on `None` in the Rust code.
-/

mutual

/-- Fueled `match_node_exact` (matcher.rs lines 48-124): match one goal
node against one candidate node. -/
def matchExactF : Nat → Node → Node → Env → Option MRes
  | 0, _, _, _ => none
  | n + 1, goal, candidate, env =>
    if goal.is_leaf then
      match match_leaf_meta_var classify goal candidate env with
      | (some matched, env1) => some (.ok (some matched) env1)
      | (none, env1) =>
        -- lines 59-61 and 62-69: literal comparison for a non-meta leaf
        if goal.kind_id ≠ candidate.kind_id then some (.ok none env1)
        else if goal.text = candidate.text then some (.ok (some candidate) env1)
        else some (.ok none env1)
    else
      if goal.kind_id ≠ candidate.kind_id then some (.ok none env)
      else matchSeqF n candidate goal.children candidate.children env

/-- Fueled child-sequence loop of `match_node_exact` (matcher.rs lines
70-124), with `candRoot` the candidate node returned on success, `gs` the
goal-children cursor and `cs` the candidate-children cursor. -/
def matchSeqF : Nat → Node → List Node → List Node → Env → Option MRes
  | 0, _, _, _, _ => none
  | n + 1, candRoot, gs, cs, env =>
    match cs with
    | [] => some (.ok none env)       -- line 72: cand_children.peek()?
    | c :: ctl =>
      match gs with
      | [] => some .panicked          -- line 74: goal_children.peek().unwrap()
      | g :: gtl =>
        if is_ellipsis classify g then
          match skipUnnamed gtl with
          | [] => some (.ok (some candRoot) env)  -- lines 78-81 / 84-87
          | g2 :: g2tl =>
            if is_ellipsis classify g2 then
              -- lines 90-95: adjacent ellipsis consumes one candidate child
              match ctl with
              | [] => some (.ok none env)   -- line 92: cand_children.peek()?
              | c2 :: c2tl => matchSeqF n candRoot (g2 :: g2tl) (c2 :: c2tl) env
            else
              -- lines 96-109: forward scan for an anchor
              matchScanF n candRoot (g2 :: g2tl) (c :: ctl) env
        else
          matchStepF n candRoot (g :: gtl) (c :: ctl) env

/-- Fueled forward-scan loop of `match_node_exact` (matcher.rs lines
96-109): try the concrete post-ellipsis sub-pattern (head of `gs`) against
each candidate child in turn. -/
def matchScanF : Nat → Node → List Node → List Node → Env → Option MRes
  | 0, _, _, _, _ => none
  | n + 1, candRoot, gs, cs, env =>
    match gs, cs with
    | g :: gsTl, c :: ctl =>
      match matchExactF n g c env with
      | none => none
      | some .panicked => some .panicked
      | some (.ok (some _) env1) =>
        -- line 105: `.is_some()` holds, break to line 111
        matchStepF n candRoot (g :: gsTl) (c :: ctl) env1
      | some (.ok none env1) =>
        match ctl with
        | [] => some (.ok none env1)    -- line 108: cand_children.peek()?
        | c2 :: c2tl => matchScanF n candRoot (g :: gsTl) (c2 :: c2tl) env1
    | _, _ => some .panicked            -- lines 98-99: peek().unwrap()

/-- Fueled common tail of the sequence loop (matcher.rs lines 111-123):
match the current goal child 1:1 against the current candidate child, then
advance both cursors. -/
def matchStepF : Nat → Node → List Node → List Node → Env → Option MRes
  | 0, _, _, _, _ => none
  | n + 1, candRoot, gs, cs, env =>
    match gs, cs with
    | g :: gtl, c :: ctl =>
      match matchExactF n g c env with
      | none => none
      | some .panicked => some .panicked
      | some (.ok none env1) =>
        some (.ok none env1)            -- line 115: the propagating `?`
      | some (.ok (some _) env1) =>
        match gtl with
        | [] => some (.ok (some candRoot) env1) -- lines 117-120
        | g2 :: g2tl =>
          match ctl with
          | [] => some (.ok none env1)  -- line 122: cand_children.peek()?
          | c2 :: c2tl => matchSeqF n candRoot (g2 :: g2tl) (c2 :: c2tl) env1
    | _, _ => some .panicked            -- lines 111-113: peek().unwrap()

end

/-- One-layer unfolding of `matchExactF` at successor fuel. -/
theorem matchExactF_succ (n : Nat) (goal candidate : Node) (env : Env) :
    matchExactF classify (n + 1) goal candidate env =
      if goal.is_leaf then
        match match_leaf_meta_var classify goal candidate env with
        | (some matched, env1) => some (.ok (some matched) env1)
        | (none, env1) =>
          if goal.kind_id ≠ candidate.kind_id then some (.ok none env1)
          else if goal.text = candidate.text then
            some (.ok (some candidate) env1)
          else some (.ok none env1)
      else
        if goal.kind_id ≠ candidate.kind_id then some (.ok none env)
        else matchSeqF classify n candidate goal.children candidate.children env
    := rfl

/-- One-layer unfolding of `matchSeqF` at successor fuel. -/
theorem matchSeqF_succ (n : Nat) (candRoot : Node) (gs cs : List Node)
    (env : Env) :
    matchSeqF classify (n + 1) candRoot gs cs env =
      match cs with
      | [] => some (.ok none env)
      | c :: ctl =>
        match gs with
        | [] => some .panicked
        | g :: gtl =>
          if is_ellipsis classify g then
            match skipUnnamed gtl with
            | [] => some (.ok (some candRoot) env)
            | g2 :: g2tl =>
              if is_ellipsis classify g2 then
                match ctl with
                | [] => some (.ok none env)
                | c2 :: c2tl =>
                  matchSeqF classify n candRoot (g2 :: g2tl) (c2 :: c2tl) env
              else matchScanF classify n candRoot (g2 :: g2tl) (c :: ctl) env
          else matchStepF classify n candRoot (g :: gtl) (c :: ctl) env
    := rfl

/-- One-layer unfolding of `matchScanF` at successor fuel. -/
theorem matchScanF_succ (n : Nat) (candRoot : Node) (gs cs : List Node)
    (env : Env) :
    matchScanF classify (n + 1) candRoot gs cs env =
      match gs, cs with
      | g :: gsTl, c :: ctl =>
        match matchExactF classify n g c env with
        | none => none
        | some .panicked => some .panicked
        | some (.ok (some _) env1) =>
          matchStepF classify n candRoot (g :: gsTl) (c :: ctl) env1
        | some (.ok none env1) =>
          match ctl with
          | [] => some (.ok none env1)
          | c2 :: c2tl =>
            matchScanF classify n candRoot (g :: gsTl) (c2 :: c2tl) env1
      | _, _ => some .panicked
    := rfl

/-- One-layer unfolding of `matchStepF` at successor fuel. -/
theorem matchStepF_succ (n : Nat) (candRoot : Node) (gs cs : List Node)
    (env : Env) :
    matchStepF classify (n + 1) candRoot gs cs env =
      match gs, cs with
      | g :: gtl, c :: ctl =>
        match matchExactF classify n g c env with
        | none => none
        | some .panicked => some .panicked
        | some (.ok none env1) => some (.ok none env1)
        | some (.ok (some _) env1) =>
          match gtl with
          | [] => some (.ok (some candRoot) env1)
          | g2 :: g2tl =>
            match ctl with
            | [] => some (.ok none env1)
            | c2 :: c2tl =>
              matchSeqF classify n candRoot (g2 :: g2tl) (c2 :: c2tl) env1
      | _, _ => some .panicked
    := rfl

/-- The termination measure of the Rust recursion is sufficient fuel: at
any fuel at least the measure, each fueled function returns the same
(defined, `isSome`) result as at exactly the measure. -/
theorem fuel_canon : ∀ n : Nat,
    (∀ g c env, sizeN g + sizeN c + 4 ≤ n →
      matchExactF classify n g c env =
        matchExactF classify (sizeN g + sizeN c + 4) g c env ∧
      (matchExactF classify n g c env).isSome = true)
  ∧ (∀ cr gs cs env, sizeL gs + sizeL cs + 3 ≤ n →
      matchSeqF classify n cr gs cs env =
        matchSeqF classify (sizeL gs + sizeL cs + 3) cr gs cs env ∧
      (matchSeqF classify n cr gs cs env).isSome = true)
  ∧ (∀ cr gs cs env, sizeL gs + sizeL cs + 2 ≤ n →
      matchScanF classify n cr gs cs env =
        matchScanF classify (sizeL gs + sizeL cs + 2) cr gs cs env ∧
      (matchScanF classify n cr gs cs env).isSome = true)
  ∧ (∀ cr gs cs env, sizeL gs + sizeL cs + 1 ≤ n →
      matchStepF classify n cr gs cs env =
        matchStepF classify (sizeL gs + sizeL cs + 1) cr gs cs env ∧
      (matchStepF classify n cr gs cs env).isSome = true) := by
  intro n
  induction n using Nat.strong_induction_on with
  | _ n ih =>
  obtain rfl | ⟨k, rfl⟩ : n = 0 ∨ ∃ k, n = k + 1 := by
    cases n with
    | zero => exact Or.inl rfl
    | succ k => exact Or.inr ⟨k, rfl⟩
  · refine ⟨?_, ?_, ?_, ?_⟩ <;> (intros; exfalso; omega)
  refine ⟨?_, ?_, ?_, ?_⟩
  · -- match_node_exact
    intro g c env h
    have hgc : sizeN g = sizeL g.children := sizeN_children g
    have hcc : sizeN c = sizeL c.children := sizeN_children c
    rw [matchExactF_succ,
      show sizeN g + sizeN c + 4 = (sizeN g + sizeN c + 3) + 1 from rfl,
      matchExactF_succ]
    by_cases hl : g.is_leaf = true
    · simp only [hl, if_true]
      rcases match_leaf_meta_var classify g c env with ⟨_ | m, env1⟩
      · by_cases hk : g.kind_id = c.kind_id
        · simp only [hk]
          by_cases ht : g.text = c.text <;> simp [ht]
        · simp [hk]
      · simp
    · simp only [hl, if_false]
      by_cases hk : g.kind_id = c.kind_id
      · simp only [hk, ne_eq, not_true_eq_false, if_false]
        have hm : sizeL g.children + sizeL c.children + 3 ≤ k := by omega
        have e1 := (ih k (Nat.lt_succ_self k)).2.1 c g.children c.children env hm
        have e2 := (ih (sizeN g + sizeN c + 3) (by omega)).2.1 c g.children
          c.children env (by omega)
        exact ⟨e1.1.trans e2.1.symm, e1.2⟩
      · simp [hk]
  · -- matchSeq
    intro cr gs cs env h
    cases cs with
    | nil =>
      rw [matchSeqF_succ,
        show sizeL gs + sizeL [] + 3 = (sizeL gs + sizeL [] + 2) + 1 from rfl,
        matchSeqF_succ]
      simp
    | cons c ctl =>
      cases gs with
      | nil =>
        rw [matchSeqF_succ,
          show sizeL ([] : List Node) + sizeL (c :: ctl) + 3 =
            (sizeL ([] : List Node) + sizeL (c :: ctl) + 2) + 1 from rfl,
          matchSeqF_succ]
        simp
      | cons g gtl =>
        rw [matchSeqF_succ,
          show sizeL (g :: gtl) + sizeL (c :: ctl) + 3 =
            (sizeL (g :: gtl) + sizeL (c :: ctl) + 2) + 1 from rfl,
          matchSeqF_succ]
        by_cases hg : is_ellipsis classify g = true
        · simp only [hg, if_true]
          cases hsk : skipUnnamed gtl with
          | nil => simp
          | cons g2 g2tl =>
            have hskle := skipUnnamed_sizeL gtl g2 g2tl hsk
            by_cases hg2 : is_ellipsis classify g2 = true
            · simp only [hg2, if_true]
              cases ctl with
              | nil => simp
              | cons c2 c2tl =>
                have hm1 : sizeL (g2 :: g2tl) + sizeL (c2 :: c2tl) + 3 ≤ k := by
                  simp only [sizeL_cons] at h ⊢
                  omega
                have e1 := (ih k (Nat.lt_succ_self k)).2.1 cr (g2 :: g2tl)
                  (c2 :: c2tl) env hm1
                have e2 := (ih (sizeL (g :: gtl) + sizeL (c :: c2 :: c2tl) + 2)
                  (by omega)).2.1 cr (g2 :: g2tl) (c2 :: c2tl) env
                  (by simp only [sizeL_cons] at *; omega)
                exact ⟨e1.1.trans e2.1.symm, e1.2⟩
            · simp only [hg2, if_false]
              have hm1 : sizeL (g2 :: g2tl) + sizeL (c :: ctl) + 2 ≤ k := by
                simp only [sizeL_cons] at h ⊢
                omega
              have e1 := (ih k (Nat.lt_succ_self k)).2.2.1 cr (g2 :: g2tl)
                (c :: ctl) env hm1
              have e2 := (ih (sizeL (g :: gtl) + sizeL (c :: ctl) + 2)
                (by omega)).2.2.1 cr (g2 :: g2tl) (c :: ctl) env
                (by simp only [sizeL_cons] at *; omega)
              exact ⟨e1.1.trans e2.1.symm, e1.2⟩
        · simp only [hg, if_false]
          have hm1 : sizeL (g :: gtl) + sizeL (c :: ctl) + 1 ≤ k := by omega
          have e1 := (ih k (Nat.lt_succ_self k)).2.2.2 cr (g :: gtl)
            (c :: ctl) env hm1
          have e2 := (ih (sizeL (g :: gtl) + sizeL (c :: ctl) + 2)
            (by omega)).2.2.2 cr (g :: gtl) (c :: ctl) env (by omega)
          exact ⟨e1.1.trans e2.1.symm, e1.2⟩
  · -- matchScan
    intro cr gs cs env h
    cases gs with
    | nil =>
      rw [matchScanF_succ,
        show sizeL ([] : List Node) + sizeL cs + 2 =
          (sizeL ([] : List Node) + sizeL cs + 1) + 1 from rfl,
        matchScanF_succ]
      cases cs <;> simp
    | cons g gsTl =>
      cases cs with
      | nil =>
        rw [matchScanF_succ,
          show sizeL (g :: gsTl) + sizeL [] + 2 =
            (sizeL (g :: gsTl) + sizeL [] + 1) + 1 from rfl,
          matchScanF_succ]
        simp
      | cons c ctl =>
        rw [matchScanF_succ,
          show sizeL (g :: gsTl) + sizeL (c :: ctl) + 2 =
            (sizeL (g :: gsTl) + sizeL (c :: ctl) + 1) + 1 from rfl,
          matchScanF_succ]
        simp only [sizeL_cons] at h
        have hme : sizeN g + sizeN c + 4 ≤ k := by omega
        have x1 := (ih k (Nat.lt_succ_self k)).1 g c env hme
        have x2 := (ih (sizeL (g :: gsTl) + sizeL (c :: ctl) + 1)
          (by simp only [sizeL_cons]; omega)).1 g c env
          (by simp only [sizeL_cons]; omega)
        simp only [x1.1, x2.1]
        rcases hx : matchExactF classify (sizeN g + sizeN c + 4) g c env with
          _ | mr
        · exfalso
          have hs := x1.2
          rw [x1.1, hx] at hs
          simp at hs
        · cases mr with
          | panicked => simp
          | ok r env1 =>
            cases r with
            | some m =>
              have hm1 : sizeL (g :: gsTl) + sizeL (c :: ctl) + 1 ≤ k := by
                simp only [sizeL_cons]
                omega
              exact (ih k (Nat.lt_succ_self k)).2.2.2 cr (g :: gsTl)
                (c :: ctl) env1 hm1
            | none =>
              cases ctl with
              | nil => simp
              | cons c2 c2tl =>
                have hm1 : sizeL (g :: gsTl) + sizeL (c2 :: c2tl) + 2 ≤ k := by
                  simp only [sizeL_cons] at *
                  omega
                have e1 := (ih k (Nat.lt_succ_self k)).2.2.1 cr (g :: gsTl)
                  (c2 :: c2tl) env1 hm1
                have e2 := (ih (sizeL (g :: gsTl) + sizeL (c :: c2 :: c2tl) + 1)
                  (by simp only [sizeL_cons] at *; omega)).2.2.1 cr (g :: gsTl)
                  (c2 :: c2tl) env1 (by simp only [sizeL_cons] at *; omega)
                exact ⟨e1.1.trans e2.1.symm, e1.2⟩
  · -- matchStep
    intro cr gs cs env h
    cases gs with
    | nil =>
      rw [matchStepF_succ,
        show sizeL ([] : List Node) + sizeL cs + 1 =
          (sizeL ([] : List Node) + sizeL cs) + 1 from rfl,
        matchStepF_succ]
      cases cs <;> simp
    | cons g gtl =>
      cases cs with
      | nil =>
        rw [matchStepF_succ,
          show sizeL (g :: gtl) + sizeL [] + 1 =
            (sizeL (g :: gtl) + sizeL []) + 1 from rfl,
          matchStepF_succ]
        simp
      | cons c ctl =>
        rw [matchStepF_succ,
          show sizeL (g :: gtl) + sizeL (c :: ctl) + 1 =
            (sizeL (g :: gtl) + sizeL (c :: ctl)) + 1 from rfl,
          matchStepF_succ]
        simp only [sizeL_cons] at h
        have hme : sizeN g + sizeN c + 4 ≤ k := by omega
        have x1 := (ih k (Nat.lt_succ_self k)).1 g c env hme
        have x2 := (ih (sizeL (g :: gtl) + sizeL (c :: ctl))
          (by simp only [sizeL_cons]; omega)).1 g c env
          (by simp only [sizeL_cons]; omega)
        simp only [x1.1, x2.1]
        rcases hx : matchExactF classify (sizeN g + sizeN c + 4) g c env with
          _ | mr
        · exfalso
          have hs := x1.2
          rw [x1.1, hx] at hs
          simp at hs
        · cases mr with
          | panicked => simp
          | ok r env1 =>
            cases r with
            | none => simp
            | some m =>
              cases gtl with
              | nil => simp
              | cons g2 g2tl =>
                cases ctl with
                | nil => simp
                | cons c2 c2tl =>
                  have hm1 : sizeL (g2 :: g2tl) + sizeL (c2 :: c2tl) + 3 ≤ k := by
                    simp only [sizeL_cons] at *
                    omega
                  have e1 := (ih k (Nat.lt_succ_self k)).2.1 cr (g2 :: g2tl)
                    (c2 :: c2tl) env1 hm1
                  have e2 := (ih (sizeL (g :: g2 :: g2tl) + sizeL (c :: c2 :: c2tl))
                    (by simp only [sizeL_cons] at *; omega)).2.1 cr (g2 :: g2tl)
                    (c2 :: c2tl) env1 (by simp only [sizeL_cons] at *; omega)
                  exact ⟨e1.1.trans e2.1.symm, e1.2⟩

/-- `match_node_exact` (matcher.rs lines 48-124), fuel-free: the fueled
version run at its (sufficient) termination measure. -/
def match_node_exact (goal candidate : Node) (env : Env) : MRes :=
  (matchExactF classify (sizeN goal + sizeN candidate + 4) goal candidate
    env).getD .panicked

/-- The child-sequence loop (matcher.rs lines 70-124), fuel-free. -/
def matchSeq (candRoot : Node) (gs cs : List Node) (env : Env) : MRes :=
  (matchSeqF classify (sizeL gs + sizeL cs + 3) candRoot gs cs env).getD
    .panicked

/-- The ellipsis forward-scan loop (matcher.rs lines 96-109), fuel-free. -/
def matchScan (candRoot : Node) (gs cs : List Node) (env : Env) : MRes :=
  (matchScanF classify (sizeL gs + sizeL cs + 2) candRoot gs cs env).getD
    .panicked

/-- The common 1:1 step of the sequence loop (matcher.rs lines 111-123),
fuel-free. -/
def matchStep (candRoot : Node) (gs cs : List Node) (env : Env) : MRes :=
  (matchStepF classify (sizeL gs + sizeL cs + 1) candRoot gs cs env).getD
    .panicked

/-- At any sufficient fuel, `matchExactF` computes `match_node_exact`. -/
theorem matchExactF_canon (n : Nat) (g c : Node) (env : Env)
    (h : sizeN g + sizeN c + 4 ≤ n) :
    matchExactF classify n g c env =
      some (match_node_exact classify g c env) := by
  have h1 := (fuel_canon classify n).1 g c env h
  have h2 := h1.2
  rw [h1.1] at h2 ⊢
  unfold match_node_exact
  obtain ⟨r, hr⟩ := Option.isSome_iff_exists.mp h2
  rw [hr]
  rfl

/-- At any sufficient fuel, `matchSeqF` computes `matchSeq`. -/
theorem matchSeqF_canon (n : Nat) (cr : Node) (gs cs : List Node) (env : Env)
    (h : sizeL gs + sizeL cs + 3 ≤ n) :
    matchSeqF classify n cr gs cs env =
      some (matchSeq classify cr gs cs env) := by
  have h1 := (fuel_canon classify n).2.1 cr gs cs env h
  have h2 := h1.2
  rw [h1.1] at h2 ⊢
  unfold matchSeq
  obtain ⟨r, hr⟩ := Option.isSome_iff_exists.mp h2
  rw [hr]
  rfl

/-- At any sufficient fuel, `matchScanF` computes `matchScan`. -/
theorem matchScanF_canon (n : Nat) (cr : Node) (gs cs : List Node) (env : Env)
    (h : sizeL gs + sizeL cs + 2 ≤ n) :
    matchScanF classify n cr gs cs env =
      some (matchScan classify cr gs cs env) := by
  have h1 := (fuel_canon classify n).2.2.1 cr gs cs env h
  have h2 := h1.2
  rw [h1.1] at h2 ⊢
  unfold matchScan
  obtain ⟨r, hr⟩ := Option.isSome_iff_exists.mp h2
  rw [hr]
  rfl

/-- At any sufficient fuel, `matchStepF` computes `matchStep`. -/
theorem matchStepF_canon (n : Nat) (cr : Node) (gs cs : List Node) (env : Env)
    (h : sizeL gs + sizeL cs + 1 ≤ n) :
    matchStepF classify n cr gs cs env =
      some (matchStep classify cr gs cs env) := by
  have h1 := (fuel_canon classify n).2.2.2 cr gs cs env h
  have h2 := h1.2
  rw [h1.1] at h2 ⊢
  unfold matchStep
  obtain ⟨r, hr⟩ := Option.isSome_iff_exists.mp h2
  rw [hr]
  rfl

/-- Defining equation of `match_node_exact` (matcher.rs lines 48-124). -/
theorem match_node_exact_eq (goal candidate : Node) (env : Env) :
    match_node_exact classify goal candidate env =
      if goal.is_leaf then
        match match_leaf_meta_var classify goal candidate env with
        | (some matched, env1) => .ok (some matched) env1
        | (none, env1) =>
          if goal.kind_id ≠ candidate.kind_id then .ok none env1
          else if goal.text = candidate.text then .ok (some candidate) env1
          else .ok none env1
      else
        if goal.kind_id ≠ candidate.kind_id then .ok none env
        else matchSeq classify candidate goal.children candidate.children env
    := by
  unfold match_node_exact
  rw [show sizeN goal + sizeN candidate + 4 =
      (sizeN goal + sizeN candidate + 3) + 1 from rfl,
    matchExactF_succ]
  by_cases hl : goal.is_leaf = true
  · simp only [hl, if_true]
    rcases match_leaf_meta_var classify goal candidate env with ⟨_ | m, env1⟩
    · by_cases hk : goal.kind_id = candidate.kind_id
      · simp only [hk, ne_eq, not_true_eq_false, if_false]
        by_cases ht : goal.text = candidate.text <;> simp [ht]
      · simp [hk]
    · simp
  · simp only [hl, if_false]
    by_cases hk : goal.kind_id = candidate.kind_id
    · simp only [hk, ne_eq, not_true_eq_false, if_false]
      rw [matchSeqF_canon _ _ _ _ _ _
        (by simp only [sizeN_children goal, sizeN_children candidate]; omega)]
      rfl
    · simp [hk]

/-- Defining equation of the child-sequence loop (matcher.rs lines
70-124). -/
theorem matchSeq_eq (cr : Node) (gs cs : List Node) (env : Env) :
    matchSeq classify cr gs cs env =
      match cs with
      | [] => .ok none env
      | c :: ctl =>
        match gs with
        | [] => .panicked
        | g :: gtl =>
          if is_ellipsis classify g then
            match skipUnnamed gtl with
            | [] => .ok (some cr) env
            | g2 :: g2tl =>
              if is_ellipsis classify g2 then
                match ctl with
                | [] => .ok none env
                | c2 :: c2tl => matchSeq classify cr (g2 :: g2tl) (c2 :: c2tl) env
              else matchScan classify cr (g2 :: g2tl) (c :: ctl) env
          else matchStep classify cr (g :: gtl) (c :: ctl) env
    := by
  unfold matchSeq
  rw [show sizeL gs + sizeL cs + 3 = (sizeL gs + sizeL cs + 2) + 1 from rfl,
    matchSeqF_succ]
  cases cs with
  | nil => rfl
  | cons c ctl =>
    cases gs with
    | nil => rfl
    | cons g gtl =>
      by_cases hg : is_ellipsis classify g = true
      · simp only [hg, if_true]
        cases hsk : skipUnnamed gtl with
        | nil => rfl
        | cons g2 g2tl =>
          have hskle := skipUnnamed_sizeL gtl g2 g2tl hsk
          by_cases hg2 : is_ellipsis classify g2 = true
          · simp only [hg2, if_true]
            cases ctl with
            | nil => rfl
            | cons c2 c2tl =>
              simp only []
              rw [matchSeqF_canon _ _ _ _ _ _
                (by simp only [sizeL_cons] at *; omega)]
              rfl
          · simp only [hg2, if_false]
            rw [matchScanF_canon _ _ _ _ _ _
              (by simp only [sizeL_cons] at *; omega)]
            rfl
      · simp only [hg, if_false]
        rw [matchStepF_canon _ _ _ _ _ _ (by omega)]
        rfl

/-- Defining equation of the forward-scan loop (matcher.rs lines
96-109). -/
theorem matchScan_eq (cr : Node) (gs cs : List Node) (env : Env) :
    matchScan classify cr gs cs env =
      match gs, cs with
      | g :: gsTl, c :: ctl =>
        match match_node_exact classify g c env with
        | .panicked => .panicked
        | .ok (some _) env1 => matchStep classify cr (g :: gsTl) (c :: ctl) env1
        | .ok none env1 =>
          match ctl with
          | [] => .ok none env1
          | c2 :: c2tl => matchScan classify cr (g :: gsTl) (c2 :: c2tl) env1
      | _, _ => .panicked
    := by
  unfold matchScan
  rw [show sizeL gs + sizeL cs + 2 = (sizeL gs + sizeL cs + 1) + 1 from rfl,
    matchScanF_succ]
  cases gs with
  | nil => cases cs <;> rfl
  | cons g gsTl =>
    cases cs with
    | nil => rfl
    | cons c ctl =>
      simp only []
      rw [matchExactF_canon _ _ _ _ _
        (by simp only [sizeL_cons]; omega)]
      rcases hr : match_node_exact classify g c env with _ | ⟨_ | m, env1⟩
      · rfl
      · cases ctl with
        | nil => rfl
        | cons c2 c2tl =>
          simp only []
          rw [matchScanF_canon _ _ _ _ _ _
            (by simp only [sizeL_cons] at *; omega)]
          rfl
      · rfl

/-- Defining equation of the common 1:1 step (matcher.rs lines 111-123). -/
theorem matchStep_eq (cr : Node) (gs cs : List Node) (env : Env) :
    matchStep classify cr gs cs env =
      match gs, cs with
      | g :: gtl, c :: ctl =>
        match match_node_exact classify g c env with
        | .panicked => .panicked
        | .ok none env1 => .ok none env1
        | .ok (some _) env1 =>
          match gtl with
          | [] => .ok (some cr) env1
          | g2 :: g2tl =>
            match ctl with
            | [] => .ok none env1
            | c2 :: c2tl => matchSeq classify cr (g2 :: g2tl) (c2 :: c2tl) env1
      | _, _ => .panicked
    := by
  unfold matchStep
  rw [matchStepF_succ]
  cases gs with
  | nil => cases cs <;> rfl
  | cons g gtl =>
    cases cs with
    | nil => rfl
    | cons c ctl =>
      simp only []
      rw [matchExactF_canon _ _ _ _ _
        (by simp only [sizeL_cons]; omega)]
      rcases hr : match_node_exact classify g c env with _ | ⟨_ | m, env1⟩
      · rfl
      · rfl
      · cases gtl with
        | nil => rfl
        | cons g2 g2tl =>
          cases ctl with
          | nil => rfl
          | cons c2 c2tl =>
            simp only []
            rw [matchSeqF_canon _ _ _ _ _ _
              (by simp only [sizeL_cons] at *; omega)]
            rfl

mutual

/-- Fueled `match_node_recursive` (matcher.rs lines 131-141): pre-order
search for the first subtree matched by `match_node_exact`. -/
def matchRecF : Nat → Node → Node → Env → Option MRes
  | 0, _, _, _ => none
  | n + 1, goal, candidate, env =>
    match match_node_exact classify goal candidate env with
    | .panicked => some .panicked
    | .ok (some m) env1 => some (.ok (some m) env1)
    | .ok none env1 => matchRecListF n goal candidate.children env1

/-- Fueled body of the `find_map` over children in `match_node_recursive`
(matcher.rs lines 137-140), threading the `&mut Env`. -/
def matchRecListF : Nat → Node → List Node → Env → Option MRes
  | 0, _, _, _ => none
  | n + 1, goal, cands, env =>
    match cands with
    | [] => some (.ok none env)
    | c :: rest =>
      match matchRecF n goal c env with
      | none => none
      | some .panicked => some .panicked
      | some (.ok (some m) env1) => some (.ok (some m) env1)
      | some (.ok none env1) => matchRecListF n goal rest env1

end

/-- One-layer unfolding of `matchRecF` at successor fuel. -/
theorem matchRecF_succ (n : Nat) (goal candidate : Node) (env : Env) :
    matchRecF classify (n + 1) goal candidate env =
      match match_node_exact classify goal candidate env with
      | .panicked => some .panicked
      | .ok (some m) env1 => some (.ok (some m) env1)
      | .ok none env1 => matchRecListF classify n goal candidate.children env1
    := rfl

/-- One-layer unfolding of `matchRecListF` at successor fuel. -/
theorem matchRecListF_succ (n : Nat) (goal : Node) (cands : List Node)
    (env : Env) :
    matchRecListF classify (n + 1) goal cands env =
      match cands with
      | [] => some (.ok none env)
      | c :: rest =>
        match matchRecF classify n goal c env with
        | none => none
        | some .panicked => some .panicked
        | some (.ok (some m) env1) => some (.ok (some m) env1)
        | some (.ok none env1) => matchRecListF classify n goal rest env1
    := rfl

/-- The tree size is sufficient fuel for the recursive search. -/
theorem fuelRec_canon : ∀ n : Nat,
    (∀ goal c env, sizeN c + 2 ≤ n →
      matchRecF classify n goal c env =
        matchRecF classify (sizeN c + 2) goal c env ∧
      (matchRecF classify n goal c env).isSome = true)
  ∧ (∀ goal cands env, sizeL cands + 1 ≤ n →
      matchRecListF classify n goal cands env =
        matchRecListF classify (sizeL cands + 1) goal cands env ∧
      (matchRecListF classify n goal cands env).isSome = true) := by
  intro n
  induction n using Nat.strong_induction_on with
  | _ n ih =>
  obtain rfl | ⟨k, rfl⟩ : n = 0 ∨ ∃ k, n = k + 1 := by
    cases n with
    | zero => exact Or.inl rfl
    | succ k => exact Or.inr ⟨k, rfl⟩
  · refine ⟨?_, ?_⟩ <;> (intros; exfalso; omega)
  refine ⟨?_, ?_⟩
  · intro goal c env h
    rw [matchRecF_succ, show sizeN c + 2 = (sizeN c + 1) + 1 from rfl,
      matchRecF_succ]
    rcases match_node_exact classify goal c env with _ | ⟨_ | m, env1⟩
    · simp
    · -- failure: recurse into children
      have hcc : sizeN c = sizeL c.children := sizeN_children c
      have e1 := (ih k (Nat.lt_succ_self k)).2 goal c.children env1 (by omega)
      have e2 := (ih (sizeN c + 1) (by omega)).2 goal c.children env1 (by omega)
      exact ⟨e1.1.trans e2.1.symm, e1.2⟩
    · simp
  · intro goal cands env h
    cases cands with
    | nil =>
      rw [matchRecListF_succ, matchRecListF_succ]
      simp
    | cons c rest =>
      rw [matchRecListF_succ, matchRecListF_succ]
      simp only [sizeL_cons] at h
      have x1 := (ih k (Nat.lt_succ_self k)).1 goal c env (by omega)
      have x2 := (ih (sizeL (c :: rest)) (by simp only [sizeL_cons]; omega)).1
        goal c env (by simp only [sizeL_cons]; omega)
      simp only [x1.1, x2.1]
      rcases hx : matchRecF classify (sizeN c + 2) goal c env with _ | mr
      · exfalso
        have hs := x1.2
        rw [x1.1, hx] at hs
        simp at hs
      · cases mr with
        | panicked => simp
        | ok r env1 =>
          cases r with
          | some m => simp
          | none =>
            have e1 := (ih k (Nat.lt_succ_self k)).2 goal rest env1 (by omega)
            have e2 := (ih (sizeL (c :: rest)) (by simp only [sizeL_cons]; omega)).2
              goal rest env1 (by simp only [sizeL_cons]; omega)
            exact ⟨e1.1.trans e2.1.symm, e1.2⟩

/-- `match_node_recursive` (matcher.rs lines 131-141), fuel-free. -/
def match_node_recursive (goal candidate : Node) (env : Env) : MRes :=
  (matchRecF classify (sizeN candidate + 2) goal candidate env).getD .panicked

/-- The `find_map` over children in `match_node_recursive` (matcher.rs
lines 137-140), fuel-free. -/
def matchRecList (goal : Node) (cands : List Node) (env : Env) : MRes :=
  (matchRecListF classify (sizeL cands + 1) goal cands env).getD .panicked

/-- At any sufficient fuel, `matchRecF` computes `match_node_recursive`. -/
theorem matchRecF_canon (n : Nat) (goal c : Node) (env : Env)
    (h : sizeN c + 2 ≤ n) :
    matchRecF classify n goal c env =
      some (match_node_recursive classify goal c env) := by
  have h1 := (fuelRec_canon classify n).1 goal c env h
  have h2 := h1.2
  rw [h1.1] at h2 ⊢
  unfold match_node_recursive
  obtain ⟨r, hr⟩ := Option.isSome_iff_exists.mp h2
  rw [hr]
  rfl

/-- At any sufficient fuel, `matchRecListF` computes `matchRecList`. -/
theorem matchRecListF_canon (n : Nat) (goal : Node) (cands : List Node)
    (env : Env) (h : sizeL cands + 1 ≤ n) :
    matchRecListF classify n goal cands env =
      some (matchRecList classify goal cands env) := by
  have h1 := (fuelRec_canon classify n).2 goal cands env h
  have h2 := h1.2
  rw [h1.1] at h2 ⊢
  unfold matchRecList
  obtain ⟨r, hr⟩ := Option.isSome_iff_exists.mp h2
  rw [hr]
  rfl

/-- Defining equation of `match_node_recursive` (matcher.rs lines
131-141): try `match_node_exact`, else the children in source order. -/
theorem match_node_recursive_eq (goal candidate : Node) (env : Env) :
    match_node_recursive classify goal candidate env =
      match match_node_exact classify goal candidate env with
      | .panicked => .panicked
      | .ok (some m) env1 => .ok (some m) env1
      | .ok none env1 => matchRecList classify goal candidate.children env1
    := by
  unfold match_node_recursive
  rw [show sizeN candidate + 2 = (sizeN candidate + 1) + 1 from rfl,
    matchRecF_succ]
  rcases match_node_exact classify goal candidate env with _ | ⟨_ | m, env1⟩
  · rfl
  · simp only []
    rw [matchRecListF_canon _ _ _ _ _
      (by simp only [sizeN_children candidate]; omega)]
    rfl
  · rfl

/-- Defining equation of the children `find_map` (matcher.rs lines
137-140). -/
theorem matchRecList_eq (goal : Node) (cands : List Node) (env : Env) :
    matchRecList classify goal cands env =
      match cands with
      | [] => .ok none env
      | c :: rest =>
        match match_node_recursive classify goal c env with
        | .panicked => .panicked
        | .ok (some m) env1 => .ok (some m) env1
        | .ok none env1 => matchRecList classify goal rest env1
    := by
  unfold matchRecList
  cases cands with
  | nil => rfl
  | cons c rest =>
    rw [matchRecListF_succ]
    simp only []
    rw [matchRecF_canon _ _ _ _ _ (by simp only [sizeL_cons]; omega)]
    rcases hr : match_node_recursive classify goal c env with _ | ⟨_ | m, env1⟩
    · rfl
    · simp only []
      rw [matchRecListF_canon _ _ _ _ _ (by simp only [sizeL_cons]; omega)]
      rfl
    · rfl

mutual

/-- Fueled `match_single_kind` (matcher.rs lines 4-17): pre-order search
for the first node whose `kind` equals `goal_kind`; the environment is
received by mutable reference but never written (the update is left as a
commented-out TODO in the source). -/
def matchKindF : Nat → String → Node → Env → Option (Option Node × Env)
  | 0, _, _, _ => none
  | n + 1, goal_kind, candidate, env =>
    if candidate.kind = goal_kind then some (some candidate, env)
    else matchKindListF n goal_kind candidate.children env

/-- Fueled body of the `find_map` over children in `match_single_kind`
(matcher.rs lines 14-16). -/
def matchKindListF : Nat → String → List Node → Env → Option (Option Node × Env)
  | 0, _, _, _ => none
  | n + 1, goal_kind, cands, env =>
    match cands with
    | [] => some (none, env)
    | c :: rest =>
      match matchKindF n goal_kind c env with
      | none => none
      | some (some m, env1) => some (some m, env1)
      | some (none, env1) => matchKindListF n goal_kind rest env1

end

/-- One-layer unfolding of `matchKindF` at successor fuel. -/
theorem matchKindF_succ (n : Nat) (goal_kind : String) (candidate : Node)
    (env : Env) :
    matchKindF (n + 1) goal_kind candidate env =
      if candidate.kind = goal_kind then some (some candidate, env)
      else matchKindListF n goal_kind candidate.children env := rfl

/-- One-layer unfolding of `matchKindListF` at successor fuel. -/
theorem matchKindListF_succ (n : Nat) (goal_kind : String) (cands : List Node)
    (env : Env) :
    matchKindListF (n + 1) goal_kind cands env =
      match cands with
      | [] => some (none, env)
      | c :: rest =>
        match matchKindF n goal_kind c env with
        | none => none
        | some (some m, env1) => some (some m, env1)
        | some (none, env1) => matchKindListF n goal_kind rest env1 := rfl

/-- The tree size is sufficient fuel for the kind search. -/
theorem fuelKind_canon : ∀ n : Nat,
    (∀ gk c env, sizeN c + 2 ≤ n →
      matchKindF n gk c env = matchKindF (sizeN c + 2) gk c env ∧
      (matchKindF n gk c env).isSome = true)
  ∧ (∀ gk cands env, sizeL cands + 1 ≤ n →
      matchKindListF n gk cands env =
        matchKindListF (sizeL cands + 1) gk cands env ∧
      (matchKindListF n gk cands env).isSome = true) := by
  intro n
  induction n using Nat.strong_induction_on with
  | _ n ih =>
  obtain rfl | ⟨k, rfl⟩ : n = 0 ∨ ∃ k, n = k + 1 := by
    cases n with
    | zero => exact Or.inl rfl
    | succ k => exact Or.inr ⟨k, rfl⟩
  · refine ⟨?_, ?_⟩ <;> (intros; exfalso; omega)
  refine ⟨?_, ?_⟩
  · intro gk c env h
    rw [matchKindF_succ, show sizeN c + 2 = (sizeN c + 1) + 1 from rfl,
      matchKindF_succ]
    by_cases hk : c.kind = gk
    · simp [hk]
    · simp only [hk, if_false]
      have hcc : sizeN c = sizeL c.children := sizeN_children c
      have e1 := (ih k (Nat.lt_succ_self k)).2 gk c.children env (by omega)
      have e2 := (ih (sizeN c + 1) (by omega)).2 gk c.children env (by omega)
      exact ⟨e1.1.trans e2.1.symm, e1.2⟩
  · intro gk cands env h
    cases cands with
    | nil =>
      rw [matchKindListF_succ, matchKindListF_succ]
      simp
    | cons c rest =>
      rw [matchKindListF_succ, matchKindListF_succ]
      simp only [sizeL_cons] at h
      have x1 := (ih k (Nat.lt_succ_self k)).1 gk c env (by omega)
      have x2 := (ih (sizeL (c :: rest)) (by simp only [sizeL_cons]; omega)).1
        gk c env (by simp only [sizeL_cons]; omega)
      simp only [x1.1, x2.1]
      rcases hx : matchKindF (sizeN c + 2) gk c env with _ | ⟨_ | m, env1⟩
      · exfalso
        have hs := x1.2
        rw [x1.1, hx] at hs
        simp at hs
      · have e1 := (ih k (Nat.lt_succ_self k)).2 gk rest env1 (by omega)
        have e2 := (ih (sizeL (c :: rest)) (by simp only [sizeL_cons]; omega)).2
          gk rest env1 (by simp only [sizeL_cons]; omega)
        exact ⟨e1.1.trans e2.1.symm, e1.2⟩
      · simp

/-- `match_single_kind` (matcher.rs lines 4-17), fuel-free. -/
def match_single_kind (goal_kind : String) (candidate : Node) (env : Env) :
    Option Node × Env :=
  (matchKindF (sizeN candidate + 2) goal_kind candidate env).getD (none, env)

/-- The `find_map` over children in `match_single_kind` (matcher.rs lines
14-16), fuel-free. -/
def matchKindList (goal_kind : String) (cands : List Node) (env : Env) :
    Option Node × Env :=
  (matchKindListF (sizeL cands + 1) goal_kind cands env).getD (none, env)

/-- At any sufficient fuel, `matchKindF` computes `match_single_kind`. -/
theorem matchKindF_canon (n : Nat) (gk : String) (c : Node) (env : Env)
    (h : sizeN c + 2 ≤ n) :
    matchKindF n gk c env = some (match_single_kind gk c env) := by
  have h1 := (fuelKind_canon n).1 gk c env h
  have h2 := h1.2
  rw [h1.1] at h2 ⊢
  unfold match_single_kind
  obtain ⟨r, hr⟩ := Option.isSome_iff_exists.mp h2
  rw [hr]
  rfl

/-- At any sufficient fuel, `matchKindListF` computes `matchKindList`. -/
theorem matchKindListF_canon (n : Nat) (gk : String) (cands : List Node)
    (env : Env) (h : sizeL cands + 1 ≤ n) :
    matchKindListF n gk cands env = some (matchKindList gk cands env) := by
  have h1 := (fuelKind_canon n).2 gk cands env h
  have h2 := h1.2
  rw [h1.1] at h2 ⊢
  unfold matchKindList
  obtain ⟨r, hr⟩ := Option.isSome_iff_exists.mp h2
  rw [hr]
  rfl

/-- Defining equation of `match_single_kind` (matcher.rs lines 4-17). -/
theorem match_single_kind_eq (goal_kind : String) (candidate : Node)
    (env : Env) :
    match_single_kind goal_kind candidate env =
      if candidate.kind = goal_kind then (some candidate, env)
      else matchKindList goal_kind candidate.children env := by
  unfold match_single_kind
  rw [show sizeN candidate + 2 = (sizeN candidate + 1) + 1 from rfl,
    matchKindF_succ]
  by_cases hk : candidate.kind = goal_kind
  · simp [hk]
  · simp only [hk, if_false]
    rw [matchKindListF_canon _ _ _ _
      (by simp only [sizeN_children candidate]; omega)]
    rfl

/-- Defining equation of the children `find_map` in `match_single_kind`
(matcher.rs lines 14-16). -/
theorem matchKindList_eq (goal_kind : String) (cands : List Node)
    (env : Env) :
    matchKindList goal_kind cands env =
      match cands with
      | [] => (none, env)
      | c :: rest =>
        match match_single_kind goal_kind c env with
        | (some m, env1) => (some m, env1)
        | (none, env1) => matchKindList goal_kind rest env1 := by
  unfold matchKindList
  cases cands with
  | nil => rfl
  | cons c rest =>
    rw [matchKindListF_succ]
    simp only []
    rw [matchKindF_canon _ _ _ _ (by simp only [sizeL_cons]; omega)]
    rcases hr : match_single_kind goal_kind c env with ⟨_ | m, env1⟩
    · simp only []
      rw [matchKindListF_canon _ _ _ _ (by simp only [sizeL_cons]; omega)]
      rfl
    · rfl

theorem children_ne_nil_of_not_leaf (g : Node) (h : ¬g.is_leaf = true) :
    g.children ≠ [] := by
  cases g with
  | mk k i nm t cs =>
    cases cs with
    | nil => simp [Node.is_leaf, Node.children, List.isEmpty] at h
    | cons c rest => simp [Node.children]

/-- No fueled run of the matcher ever reaches an internal `unwrap()` on
`None`, provided the loop functions are entered with the cursor invariants
the code establishes (nonempty goal cursor; nonempty candidate cursor for
the scan and step). -/
theorem noPanicF : ∀ n : Nat,
    (∀ g c env, matchExactF classify n g c env ≠ some .panicked)
  ∧ (∀ cr gs cs env, gs ≠ [] →
      matchSeqF classify n cr gs cs env ≠ some .panicked)
  ∧ (∀ cr gs cs env, gs ≠ [] → cs ≠ [] →
      matchScanF classify n cr gs cs env ≠ some .panicked)
  ∧ (∀ cr gs cs env, gs ≠ [] → cs ≠ [] →
      matchStepF classify n cr gs cs env ≠ some .panicked) := by
  intro n
  induction n with
  | zero =>
    refine ⟨?_, ?_, ?_, ?_⟩ <;>
      (intros; simp [matchExactF, matchSeqF, matchScanF, matchStepF])
  | succ n ih =>
    obtain ⟨ihE, ihSeq, ihScan, ihStep⟩ := ih
    refine ⟨?_, ?_, ?_, ?_⟩
    · intro g c env
      rw [matchExactF_succ]
      by_cases hl : g.is_leaf = true
      · simp only [hl, if_true]
        rcases match_leaf_meta_var classify g c env with ⟨_ | m, env1⟩
        · by_cases hk : g.kind_id = c.kind_id
          · by_cases ht : g.text = c.text <;> simp [hk, ht]
          · simp [hk]
        · simp
      · simp only [hl, if_false]
        by_cases hk : g.kind_id = c.kind_id
        · simp only [hk, ne_eq, not_true_eq_false, if_false]
          exact ihSeq c g.children c.children env
            (children_ne_nil_of_not_leaf g hl)
        · simp [hk]
    · intro cr gs cs env hgs
      rw [matchSeqF_succ]
      cases cs with
      | nil => simp
      | cons c ctl =>
        cases gs with
        | nil => exact absurd rfl hgs
        | cons g gtl =>
          by_cases hg : is_ellipsis classify g = true
          · simp only [hg, if_true]
            cases hsk : skipUnnamed gtl with
            | nil => simp
            | cons g2 g2tl =>
              by_cases hg2 : is_ellipsis classify g2 = true
              · simp only [hg2, if_true]
                cases ctl with
                | nil => simp
                | cons c2 c2tl =>
                  exact ihSeq cr (g2 :: g2tl) (c2 :: c2tl) env (by simp)
              · simp only [hg2, if_false]
                exact ihScan cr (g2 :: g2tl) (c :: ctl) env (by simp) (by simp)
          · simp only [hg, if_false]
            exact ihStep cr (g :: gtl) (c :: ctl) env (by simp) (by simp)
    · intro cr gs cs env hgs hcs
      rw [matchScanF_succ]
      cases gs with
      | nil => exact absurd rfl hgs
      | cons g gsTl =>
        cases cs with
        | nil => exact absurd rfl hcs
        | cons c ctl =>
          simp only []
          rcases hx : matchExactF classify n g c env with _ | mr
          · simp
          · cases mr with
            | panicked => exact absurd hx (ihE g c env)
            | ok r env1 =>
              cases r with
              | some m =>
                exact ihStep cr (g :: gsTl) (c :: ctl) env1 (by simp) (by simp)
              | none =>
                cases ctl with
                | nil => simp
                | cons c2 c2tl =>
                  exact ihScan cr (g :: gsTl) (c2 :: c2tl) env1 (by simp)
                    (by simp)
    · intro cr gs cs env hgs hcs
      rw [matchStepF_succ]
      cases gs with
      | nil => exact absurd rfl hgs
      | cons g gtl =>
        cases cs with
        | nil => exact absurd rfl hcs
        | cons c ctl =>
          simp only []
          rcases hx : matchExactF classify n g c env with _ | mr
          · simp
          · cases mr with
            | panicked => exact absurd hx (ihE g c env)
            | ok r env1 =>
              cases r with
              | none => simp
              | some m =>
                cases gtl with
                | nil => simp
                | cons g2 g2tl =>
                  cases ctl with
                  | nil => simp
                  | cons c2 c2tl =>
                    exact ihSeq cr (g2 :: g2tl) (c2 :: c2tl) env1 (by simp)

/-- `match_node_exact` never reaches an internal `unwrap()` on `None`. -/
theorem match_node_exact_no_panic (g c : Node) (env : Env) :
    match_node_exact classify g c env ≠ .panicked := by
  have h := (noPanicF classify (sizeN g + sizeN c + 4)).1 g c env
  rw [matchExactF_canon classify (sizeN g + sizeN c + 4) g c env
    (Nat.le_refl _)] at h
  intro he
  rw [he] at h
  exact h rfl

/-- The sequence loop never panics when entered with a nonempty goal
cursor. -/
theorem matchSeq_no_panic (cr : Node) (gs cs : List Node) (env : Env)
    (hgs : gs ≠ []) : matchSeq classify cr gs cs env ≠ .panicked := by
  have h := (noPanicF classify (sizeL gs + sizeL cs + 3)).2.1 cr gs cs env hgs
  rw [matchSeqF_canon classify (sizeL gs + sizeL cs + 3) cr gs cs env
    (Nat.le_refl _)] at h
  intro he
  rw [he] at h
  exact h rfl

/-- `match_node_recursive` never panics. -/
theorem noPanicRecF : ∀ n : Nat,
    (∀ g c env, matchRecF classify n g c env ≠ some .panicked)
  ∧ (∀ g cands env, matchRecListF classify n g cands env ≠ some .panicked) := by
  intro n
  induction n with
  | zero =>
    refine ⟨?_, ?_⟩ <;> (intros; simp [matchRecF, matchRecListF])
  | succ n ih =>
    obtain ⟨ihR, ihL⟩ := ih
    refine ⟨?_, ?_⟩
    · intro g c env
      rw [matchRecF_succ]
      rcases hx : match_node_exact classify g c env with _ | ⟨_ | m, env1⟩
      · exact absurd hx (match_node_exact_no_panic classify g c env)
      · exact ihL g c.children env1
      · simp
    · intro g cands env
      rw [matchRecListF_succ]
      cases cands with
      | nil => simp
      | cons c rest =>
        simp only []
        rcases hx : matchRecF classify n g c env with _ | mr
        · simp
        · cases mr with
          | panicked => exact absurd hx (ihR g c env)
          | ok r env1 =>
            cases r with
            | some m => simp
            | none => exact ihL g rest env1

/-- Wrapper-level: `match_node_recursive` never panics. -/
theorem match_node_recursive_no_panic (g c : Node) (env : Env) :
    match_node_recursive classify g c env ≠ .panicked := by
  have h := (noPanicRecF classify (sizeN c + 2)).1 g c env
  rw [matchRecF_canon classify (sizeN c + 2) g c env (Nat.le_refl _)] at h
  intro he
  rw [he] at h
  exact h rfl

end Matcher

/-- The match outcome of a call, with the final environment erased:
`none` for a panic, `some r` for a normal return of `r`. -/
def resOf : MRes → Option (Option Node)
  | .panicked => none
  | .ok r _ => some r

/-- Outcome of a fueled call with the final environment erased. -/
def shapeF : Option MRes → Option (Option (Option Node))
  | none => none
  | some m => some (resOf m)

theorem shape_cases (a b : Option MRes) (h : shapeF a = shapeF b) :
    (a = none ∧ b = none) ∨ (a = some .panicked ∧ b = some .panicked) ∨
    (∃ r e e', a = some (.ok r e) ∧ b = some (.ok r e')) := by
  cases a with
  | none =>
    cases b with
    | none => exact Or.inl ⟨rfl, rfl⟩
    | some m => simp [shapeF] at h
  | some m =>
    cases b with
    | none => simp [shapeF] at h
    | some m2 =>
      cases m with
      | panicked =>
        cases m2 with
        | panicked => exact Or.inr (Or.inl ⟨rfl, rfl⟩)
        | ok r2 e2 => simp [shapeF, resOf] at h
      | ok r e =>
        cases m2 with
        | panicked => simp [shapeF, resOf] at h
        | ok r2 e2 =>
          simp only [shapeF, resOf, Option.some.injEq] at h
          exact Or.inr (Or.inr ⟨r, e, e2, rfl, by rw [h]⟩)

section Matcher

variable (classify : String → Option MetaVariable)

/-- The environment argument never influences the match outcome (the
environment is write-only in the matcher): at any fuel, runs from two
different environments have the same erased outcome. -/
theorem envIrrelF : ∀ n : Nat,
    (∀ g c env env', shapeF (matchExactF classify n g c env) =
      shapeF (matchExactF classify n g c env'))
  ∧ (∀ cr gs cs env env', shapeF (matchSeqF classify n cr gs cs env) =
      shapeF (matchSeqF classify n cr gs cs env'))
  ∧ (∀ cr gs cs env env', shapeF (matchScanF classify n cr gs cs env) =
      shapeF (matchScanF classify n cr gs cs env'))
  ∧ (∀ cr gs cs env env', shapeF (matchStepF classify n cr gs cs env) =
      shapeF (matchStepF classify n cr gs cs env')) := by
  intro n
  induction n with
  | zero => refine ⟨?_, ?_, ?_, ?_⟩ <;> (intros; rfl)
  | succ n ih =>
    obtain ⟨ihE, ihSeq, ihScan, ihStep⟩ := ih
    refine ⟨?_, ?_, ?_, ?_⟩
    · intro g c env env'
      rw [matchExactF_succ, matchExactF_succ]
      by_cases hl : g.is_leaf = true
      · simp only [hl, if_true, match_leaf_meta_var]
        rcases extract_var_from_node classify g with _ | mv
        · simp only []
          by_cases hk : g.kind_id = c.kind_id
          · by_cases ht : g.text = c.text <;> simp [hk, ht, shapeF, resOf]
          · simp [hk, shapeF, resOf]
        · cases mv <;> simp [shapeF, resOf]
      · simp only [hl, if_false]
        by_cases hk : g.kind_id = c.kind_id
        · simp only [hk, ne_eq, not_true_eq_false, if_false]
          exact ihSeq c g.children c.children env env'
        · simp [hk, shapeF, resOf]
    · intro cr gs cs env env'
      rw [matchSeqF_succ, matchSeqF_succ]
      cases cs with
      | nil => rfl
      | cons c ctl =>
        cases gs with
        | nil => rfl
        | cons g gtl =>
          by_cases hg : is_ellipsis classify g = true
          · simp only [hg, if_true]
            cases hsk : skipUnnamed gtl with
            | nil => rfl
            | cons g2 g2tl =>
              by_cases hg2 : is_ellipsis classify g2 = true
              · simp only [hg2, if_true]
                cases ctl with
                | nil => rfl
                | cons c2 c2tl => exact ihSeq cr (g2 :: g2tl) (c2 :: c2tl) env env'
              · simp only [hg2, if_false]
                exact ihScan cr (g2 :: g2tl) (c :: ctl) env env'
          · simp only [hg, if_false]
            exact ihStep cr (g :: gtl) (c :: ctl) env env'
    · intro cr gs cs env env'
      rw [matchScanF_succ, matchScanF_succ]
      cases gs with
      | nil => cases cs <;> rfl
      | cons g gsTl =>
        cases cs with
        | nil => rfl
        | cons c ctl =>
          simp only []
          rcases shape_cases _ _ (ihE g c env env') with
            ⟨h1, h2⟩ | ⟨h1, h2⟩ | ⟨r, e, e', h1, h2⟩
          · rw [h1, h2]
          · rw [h1, h2]
          · rw [h1, h2]
            cases r with
            | some m => exact ihStep cr (g :: gsTl) (c :: ctl) e e'
            | none =>
              cases ctl with
              | nil => rfl
              | cons c2 c2tl => exact ihScan cr (g :: gsTl) (c2 :: c2tl) e e'
    · intro cr gs cs env env'
      rw [matchStepF_succ, matchStepF_succ]
      cases gs with
      | nil => cases cs <;> rfl
      | cons g gtl =>
        cases cs with
        | nil => rfl
        | cons c ctl =>
          simp only []
          rcases shape_cases _ _ (ihE g c env env') with
            ⟨h1, h2⟩ | ⟨h1, h2⟩ | ⟨r, e, e', h1, h2⟩
          · rw [h1, h2]
          · rw [h1, h2]
          · rw [h1, h2]
            cases r with
            | none => rfl
            | some m =>
              cases gtl with
              | nil => rfl
              | cons g2 g2tl =>
                cases ctl with
                | nil => rfl
                | cons c2 c2tl => exact ihSeq cr (g2 :: g2tl) (c2 :: c2tl) e e'

/-- The match outcome of `match_node_exact` does not depend on the
incoming environment. -/
theorem match_node_exact_env_irrel (g c : Node) (env env' : Env) :
    resOf (match_node_exact classify g c env) =
      resOf (match_node_exact classify g c env') := by
  have h := (envIrrelF classify (sizeN g + sizeN c + 4)).1 g c env env'
  rw [matchExactF_canon classify _ _ _ _ (Nat.le_refl _),
    matchExactF_canon classify _ _ _ _ (Nat.le_refl _)] at h
  simpa [shapeF] using h

/-- The outcome of the sequence loop does not depend on the incoming
environment. -/
theorem matchSeq_env_irrel (cr : Node) (gs cs : List Node) (env env' : Env) :
    resOf (matchSeq classify cr gs cs env) =
      resOf (matchSeq classify cr gs cs env') := by
  have h := (envIrrelF classify (sizeL gs + sizeL cs + 3)).2.1 cr gs cs env env'
  rw [matchSeqF_canon classify _ _ _ _ _ (Nat.le_refl _),
    matchSeqF_canon classify _ _ _ _ _ (Nat.le_refl _)] at h
  simpa [shapeF] using h

/-- The outcome of the forward scan does not depend on the incoming
environment. -/
theorem matchScan_env_irrel (cr : Node) (gs cs : List Node) (env env' : Env) :
    resOf (matchScan classify cr gs cs env) =
      resOf (matchScan classify cr gs cs env') := by
  have h := (envIrrelF classify (sizeL gs + sizeL cs + 2)).2.2.1 cr gs cs env env'
  rw [matchScanF_canon classify _ _ _ _ _ (Nat.le_refl _),
    matchScanF_canon classify _ _ _ _ _ (Nat.le_refl _)] at h
  simpa [shapeF] using h

/-- The outcome of the 1:1 step does not depend on the incoming
environment. -/
theorem matchStep_env_irrel (cr : Node) (gs cs : List Node) (env env' : Env) :
    resOf (matchStep classify cr gs cs env) =
      resOf (matchStep classify cr gs cs env') := by
  have h := (envIrrelF classify (sizeL gs + sizeL cs + 1)).2.2.2 cr gs cs env env'
  rw [matchStepF_canon classify _ _ _ _ _ (Nat.le_refl _),
    matchStepF_canon classify _ _ _ _ _ (Nat.le_refl _)] at h
  simpa [shapeF] using h

/-- On success, the matcher always returns the candidate root it was
given (matcher.rs returns `Some(candidate)` on every success path). -/
theorem resShapeF : ∀ n : Nat,
    (∀ g c env r e, matchExactF classify n g c env = some (.ok r e) →
      r = none ∨ r = some c)
  ∧ (∀ cr gs cs env r e, matchSeqF classify n cr gs cs env = some (.ok r e) →
      r = none ∨ r = some cr)
  ∧ (∀ cr gs cs env r e, matchScanF classify n cr gs cs env = some (.ok r e) →
      r = none ∨ r = some cr)
  ∧ (∀ cr gs cs env r e, matchStepF classify n cr gs cs env = some (.ok r e) →
      r = none ∨ r = some cr) := by
  intro n
  induction n with
  | zero =>
    refine ⟨?_, ?_, ?_, ?_⟩
    · intro g c env r e h
      rw [show matchExactF classify 0 g c env = none from rfl] at h
      exact absurd h (by simp)
    · intro cr gs cs env r e h
      rw [show matchSeqF classify 0 cr gs cs env = none from rfl] at h
      exact absurd h (by simp)
    · intro cr gs cs env r e h
      rw [show matchScanF classify 0 cr gs cs env = none from rfl] at h
      exact absurd h (by simp)
    · intro cr gs cs env r e h
      rw [show matchStepF classify 0 cr gs cs env = none from rfl] at h
      exact absurd h (by simp)
  | succ n ih =>
    obtain ⟨ihE, ihSeq, ihScan, ihStep⟩ := ih
    refine ⟨?_, ?_, ?_, ?_⟩
    · intro g c env r e h
      rw [matchExactF_succ] at h
      by_cases hl : g.is_leaf = true
      · simp only [hl, if_true, match_leaf_meta_var] at h
        rcases hcl : extract_var_from_node classify g with _ | mv
        · rw [hcl] at h
          by_cases hk : g.kind_id = c.kind_id
          · by_cases ht : g.text = c.text <;>
              (simp [hk, ht] at h; simp [h.1])
          · simp [hk] at h
            simp [h.1]
        · rw [hcl] at h
          cases mv <;> (simp at h; simp [h.1])
      · simp only [hl, if_false] at h
        by_cases hk : g.kind_id = c.kind_id
        · simp only [hk, ne_eq, not_true_eq_false, if_false] at h
          exact ihSeq c g.children c.children env r e h
        · simp [hk] at h
          simp [h.1]
    · intro cr gs cs env r e h
      rw [matchSeqF_succ] at h
      cases cs with
      | nil =>
        simp at h
        simp [h.1]
      | cons c ctl =>
        cases gs with
        | nil => simp at h
        | cons g gtl =>
          by_cases hg : is_ellipsis classify g = true
          · simp only [hg, if_true] at h
            cases hsk : skipUnnamed gtl with
            | nil =>
              rw [hsk] at h
              simp at h
              simp [h.1]
            | cons g2 g2tl =>
              rw [hsk] at h
              by_cases hg2 : is_ellipsis classify g2 = true
              · simp only [hg2, if_true] at h
                cases ctl with
                | nil =>
                  simp at h
                  simp [h.1]
                | cons c2 c2tl =>
                  exact ihSeq cr (g2 :: g2tl) (c2 :: c2tl) env r e h
              · simp only [hg2, if_false] at h
                exact ihScan cr (g2 :: g2tl) (c :: ctl) env r e h
          · simp only [hg, if_false] at h
            exact ihStep cr (g :: gtl) (c :: ctl) env r e h
    · intro cr gs cs env r e h
      rw [matchScanF_succ] at h
      cases gs with
      | nil => cases cs <;> simp at h
      | cons g gsTl =>
        cases cs with
        | nil => simp at h
        | cons c ctl =>
          simp only [] at h
          rcases hx : matchExactF classify n g c env with _ | mr
          · rw [hx] at h
            simp at h
          · rw [hx] at h
            cases mr with
            | panicked => simp at h
            | ok r1 env1 =>
              cases r1 with
              | some m => exact ihStep cr (g :: gsTl) (c :: ctl) env1 r e h
              | none =>
                cases ctl with
                | nil =>
                  simp at h
                  simp [h.1]
                | cons c2 c2tl =>
                  exact ihScan cr (g :: gsTl) (c2 :: c2tl) env1 r e h
    · intro cr gs cs env r e h
      rw [matchStepF_succ] at h
      cases gs with
      | nil => cases cs <;> simp at h
      | cons g gtl =>
        cases cs with
        | nil => simp at h
        | cons c ctl =>
          simp only [] at h
          rcases hx : matchExactF classify n g c env with _ | mr
          · rw [hx] at h
            simp at h
          · rw [hx] at h
            cases mr with
            | panicked => simp at h
            | ok r1 env1 =>
              cases r1 with
              | none =>
                simp at h
                simp [h.1]
              | some m =>
                cases gtl with
                | nil =>
                  simp at h
                  simp [h.1]
                | cons g2 g2tl =>
                  cases ctl with
                  | nil =>
                    simp at h
                    simp [h.1]
                  | cons c2 c2tl =>
                    exact ihSeq cr (g2 :: g2tl) (c2 :: c2tl) env1 r e h

/-- Whether `match_node_exact` succeeds on `g` vs `c` (env-independent,
by `match_node_exact_env_irrel`). -/
def matchesB (g c : Node) : Bool :=
  match match_node_exact classify g c [] with
  | .ok (some _) _ => true
  | _ => false

/-- Wrapper-level result shape: a successful `match_node_exact` returns
exactly the candidate node. -/
theorem match_node_exact_shape (g c : Node) (env : Env) (r : Option Node)
    (e : Env) (h : match_node_exact classify g c env = .ok r e) :
    r = none ∨ r = some c := by
  have hc := matchExactF_canon classify (sizeN g + sizeN c + 4) g c env
    (Nat.le_refl _)
  rw [h] at hc
  exact (resShapeF classify _).1 g c env r e hc

/-- Wrapper-level result shape for the sequence loop. -/
theorem matchSeq_shape (cr : Node) (gs cs : List Node) (env : Env)
    (r : Option Node) (e : Env) (h : matchSeq classify cr gs cs env = .ok r e) :
    r = none ∨ r = some cr := by
  have hc := matchSeqF_canon classify (sizeL gs + sizeL cs + 3) cr gs cs env
    (Nat.le_refl _)
  rw [h] at hc
  exact (resShapeF classify _).2.1 cr gs cs env r e hc

/-- The match outcome of `match_node_exact`, characterized: it never
panics, and it succeeds returning the candidate iff `matchesB` holds. -/
theorem match_node_exact_resOf (g c : Node) (env : Env) :
    resOf (match_node_exact classify g c env) =
      some (if matchesB classify g c then some c else none) := by
  rw [match_node_exact_env_irrel classify g c env []]
  unfold matchesB
  rcases hm : match_node_exact classify g c [] with _ | ⟨_ | m, e⟩
  · exact absurd hm (match_node_exact_no_panic classify g c [])
  · simp [resOf]
  · rcases match_node_exact_shape classify g c [] (some m) e hm with h | h
    · exact absurd h (by simp)
    · have hm2 : m = c := by simpa using h
      subst hm2
      simp [resOf]

end Matcher

theorem lookup_insert (env : Env) (key : String) (v : Node) (k : String) :
    Env.lookup (Env.insert env key v) k =
      if key = k then some v else Env.lookup env k := by
  induction env with
  | nil =>
    by_cases hk : key = k <;> simp [Env.insert, Env.lookup, hk]
  | cons p rest ih =>
    obtain ⟨a, b⟩ := p
    by_cases hak : a = key
    · subst hak
      simp only [Env.insert, if_true]
      by_cases hk : a = k <;> simp [Env.lookup, hk]
    · simp only [Env.insert, hak, if_false]
      by_cases hk2 : a = k
      · subst hk2
        have hne : key ≠ a := fun he => hak he.symm
        simp [Env.lookup, hne]
      · simp [Env.lookup, hk2, ih]

theorem insert_keeps (env : Env) (key : String) (v : Node) (k : String)
    (h : (Env.lookup env k).isSome = true) :
    (Env.lookup (Env.insert env key v) k).isSome = true := by
  rw [lookup_insert]
  by_cases hk : key = k <;> simp [hk, h]

/-- A matching call result preserves the keys of the incoming environment:
entries are never removed, only added or overwritten. -/
def keepsEnv (env : Env) : MRes → Prop
  | .panicked => True
  | .ok _ e => ∀ k, (Env.lookup env k).isSome = true →
      (Env.lookup e k).isSome = true

theorem keepsEnv_trans (env env1 : Env) (m : MRes)
    (h1 : ∀ k, (Env.lookup env k).isSome = true →
      (Env.lookup env1 k).isSome = true)
    (h2 : keepsEnv env1 m) : keepsEnv env m := by
  cases m with
  | panicked => trivial
  | ok r e => exact fun k hk => h2 k (h1 k hk)

section Matcher

variable (classify : String → Option MetaVariable)

/-- At any fuel, every matcher call preserves the keys of the incoming
environment. -/
theorem keepsF : ∀ n : Nat,
    (∀ g c env m, matchExactF classify n g c env = some m → keepsEnv env m)
  ∧ (∀ cr gs cs env m, matchSeqF classify n cr gs cs env = some m →
      keepsEnv env m)
  ∧ (∀ cr gs cs env m, matchScanF classify n cr gs cs env = some m →
      keepsEnv env m)
  ∧ (∀ cr gs cs env m, matchStepF classify n cr gs cs env = some m →
      keepsEnv env m) := by
  intro n
  induction n with
  | zero =>
    refine ⟨?_, ?_, ?_, ?_⟩
    · intro g c env m h
      rw [show matchExactF classify 0 g c env = none from rfl] at h
      exact absurd h (by simp)
    · intro cr gs cs env m h
      rw [show matchSeqF classify 0 cr gs cs env = none from rfl] at h
      exact absurd h (by simp)
    · intro cr gs cs env m h
      rw [show matchScanF classify 0 cr gs cs env = none from rfl] at h
      exact absurd h (by simp)
    · intro cr gs cs env m h
      rw [show matchStepF classify 0 cr gs cs env = none from rfl] at h
      exact absurd h (by simp)
  | succ n ih =>
    obtain ⟨ihE, ihSeq, ihScan, ihStep⟩ := ih
    refine ⟨?_, ?_, ?_, ?_⟩
    · intro g c env m h
      rw [matchExactF_succ] at h
      by_cases hl : g.is_leaf = true
      · simp only [hl, if_true, match_leaf_meta_var] at h
        rcases hcl : extract_var_from_node classify g with _ | mv
        · rw [hcl] at h
          by_cases hk : g.kind_id = c.kind_id
          · by_cases ht : g.text = c.text <;>
              (simp [hk, ht] at h; rw [← h]; exact fun k hk => hk)
          · simp [hk] at h
            rw [← h]
            exact fun k hk => hk
        · rw [hcl] at h
          cases mv with
          | Named name =>
            simp at h
            rw [← h]
            exact fun k hk => insert_keeps env name c k hk
          | Anonymous =>
            simp at h
            rw [← h]
            exact fun k hk => hk
          | Ellipsis =>
            simp at h
            rw [← h]
            exact fun k hk => hk
          | NamedEllipsis name =>
            simp at h
            rw [← h]
            exact fun k hk => insert_keeps env name c k hk
      · simp only [hl, if_false] at h
        by_cases hk : g.kind_id = c.kind_id
        · simp only [hk, ne_eq, not_true_eq_false, if_false] at h
          exact ihSeq c g.children c.children env m h
        · simp [hk] at h
          rw [← h]
          exact fun k hk => hk
    · intro cr gs cs env m h
      rw [matchSeqF_succ] at h
      cases cs with
      | nil =>
        simp at h
        rw [← h]
        exact fun k hk => hk
      | cons c ctl =>
        cases gs with
        | nil =>
          simp at h
          rw [← h]
          trivial
        | cons g gtl =>
          by_cases hg : is_ellipsis classify g = true
          · simp only [hg, if_true] at h
            cases hsk : skipUnnamed gtl with
            | nil =>
              rw [hsk] at h
              simp at h
              rw [← h]
              exact fun k hk => hk
            | cons g2 g2tl =>
              rw [hsk] at h
              by_cases hg2 : is_ellipsis classify g2 = true
              · simp only [hg2, if_true] at h
                cases ctl with
                | nil =>
                  simp at h
                  rw [← h]
                  exact fun k hk => hk
                | cons c2 c2tl => exact ihSeq cr (g2 :: g2tl) (c2 :: c2tl) env m h
              · simp only [hg2, if_false] at h
                exact ihScan cr (g2 :: g2tl) (c :: ctl) env m h
          · simp only [hg, if_false] at h
            exact ihStep cr (g :: gtl) (c :: ctl) env m h
    · intro cr gs cs env m h
      rw [matchScanF_succ] at h
      cases gs with
      | nil => cases cs <;> (simp at h; rw [← h]; trivial)
      | cons g gsTl =>
        cases cs with
        | nil =>
          simp at h
          rw [← h]
          trivial
        | cons c ctl =>
          simp only [] at h
          rcases hx : matchExactF classify n g c env with _ | mr
          · rw [hx] at h
            simp at h
          · rw [hx] at h
            cases mr with
            | panicked =>
              simp at h
              rw [← h]
              trivial
            | ok r1 env1 =>
              have k1 : keepsEnv env (.ok r1 env1) := ihE g c env _ hx
              cases r1 with
              | some mm =>
                exact keepsEnv_trans env env1 m k1
                  (ihStep cr (g :: gsTl) (c :: ctl) env1 m h)
              | none =>
                cases ctl with
                | nil =>
                  simp at h
                  rw [← h]
                  exact fun k hk => k1 k hk
                | cons c2 c2tl =>
                  exact keepsEnv_trans env env1 m k1
                    (ihScan cr (g :: gsTl) (c2 :: c2tl) env1 m h)
    · intro cr gs cs env m h
      rw [matchStepF_succ] at h
      cases gs with
      | nil => cases cs <;> (simp at h; rw [← h]; trivial)
      | cons g gtl =>
        cases cs with
        | nil =>
          simp at h
          rw [← h]
          trivial
        | cons c ctl =>
          simp only [] at h
          rcases hx : matchExactF classify n g c env with _ | mr
          · rw [hx] at h
            simp at h
          · rw [hx] at h
            cases mr with
            | panicked =>
              simp at h
              rw [← h]
              trivial
            | ok r1 env1 =>
              have k1 : keepsEnv env (.ok r1 env1) := ihE g c env _ hx
              cases r1 with
              | none =>
                simp at h
                rw [← h]
                exact fun k hk => k1 k hk
              | some mm =>
                cases gtl with
                | nil =>
                  simp at h
                  rw [← h]
                  exact fun k hk => k1 k hk
                | cons g2 g2tl =>
                  cases ctl with
                  | nil =>
                    simp at h
                    rw [← h]
                    exact fun k hk => k1 k hk
                  | cons c2 c2tl =>
                    exact keepsEnv_trans env env1 m k1
                      (ihSeq cr (g2 :: g2tl) (c2 :: c2tl) env1 m h)

/-- `match_node_exact` never removes a capture-environment entry. -/
theorem match_node_exact_keeps (g c : Node) (env : Env) :
    keepsEnv env (match_node_exact classify g c env) := by
  exact (keepsF classify (sizeN g + sizeN c + 4)).1 g c env _
    (matchExactF_canon classify _ g c env (Nat.le_refl _))

/-- At any fuel, the recursive search preserves environment keys. -/
theorem keepsRecF : ∀ n : Nat,
    (∀ g c env m, matchRecF classify n g c env = some m → keepsEnv env m)
  ∧ (∀ g cands env m, matchRecListF classify n g cands env = some m →
      keepsEnv env m) := by
  intro n
  induction n with
  | zero =>
    refine ⟨?_, ?_⟩
    · intro g c env m h
      rw [show matchRecF classify 0 g c env = none from rfl] at h
      exact absurd h (by simp)
    · intro g cands env m h
      rw [show matchRecListF classify 0 g cands env = none from rfl] at h
      exact absurd h (by simp)
  | succ n ih =>
    obtain ⟨ihR, ihL⟩ := ih
    refine ⟨?_, ?_⟩
    · intro g c env m h
      rw [matchRecF_succ] at h
      rcases hx : match_node_exact classify g c env with _ | ⟨_ | mm, env1⟩ <;>
        rw [hx] at h
      · simp at h
        rw [← h]
        trivial
      · have k1 := match_node_exact_keeps classify g c env
        rw [hx] at k1
        exact keepsEnv_trans env env1 m k1 (ihL g c.children env1 m h)
      · simp at h
        rw [← h]
        have k1 := match_node_exact_keeps classify g c env
        rw [hx] at k1
        exact k1
    · intro g cands env m h
      rw [matchRecListF_succ] at h
      cases cands with
      | nil =>
        simp at h
        rw [← h]
        exact fun k hk => hk
      | cons c rest =>
        simp only [] at h
        rcases hx : matchRecF classify n g c env with _ | mr
        · rw [hx] at h
          simp at h
        · rw [hx] at h
          have k1 : keepsEnv env mr := ihR g c env mr hx
          cases mr with
          | panicked =>
            simp at h
            rw [← h]
            trivial
          | ok r1 env1 =>
            cases r1 with
            | some mm =>
              simp at h
              rw [← h]
              exact k1
            | none => exact keepsEnv_trans env env1 m k1 (ihL g rest env1 m h)

/-- `match_node_recursive` never removes a capture-environment entry. -/
theorem match_node_recursive_keeps (g c : Node) (env : Env) :
    keepsEnv env (match_node_recursive classify g c env) := by
  exact (keepsRecF classify (sizeN c + 2)).1 g c env _
    (matchRecF_canon classify _ g c env (Nat.le_refl _))

end Matcher

mutual

/-- All subtrees of a node in pre-order: the node itself, then the
subtrees of its children in source order. -/
def subtreesPre : Node → List Node
  | .mk k i nm t cs => .mk k i nm t cs :: subtreesListPre cs

/-- Pre-order subtrees of a forest, in source order. -/
def subtreesListPre : List Node → List Node
  | [] => []
  | c :: rest => subtreesPre c ++ subtreesListPre rest

end

theorem subtreesPre_eq (c : Node) :
    subtreesPre c = c :: subtreesListPre c.children := by
  cases c with
  | mk k i nm t cs => rfl

section Matcher

variable (classify : String → Option MetaVariable)

/-- The recursive search, characterized: its outcome is the first node of
the candidate's pre-order subtree list that `match_node_exact` accepts. -/
theorem recFindSpec : ∀ N : Nat,
    (∀ c, sizeN c + 1 ≤ N → ∀ g env,
      resOf (match_node_recursive classify g c env) =
        some ((subtreesPre c).find? (fun s => matchesB classify g s)))
  ∧ (∀ cands, sizeL cands ≤ N → ∀ g env,
      resOf (matchRecList classify g cands env) =
        some ((subtreesListPre cands).find? (fun s => matchesB classify g s)))
    := by
  intro N
  induction N with
  | zero =>
    refine ⟨?_, ?_⟩
    · intro c hc
      exfalso
      omega
    · intro cands hl g env
      cases cands with
      | nil =>
        rw [matchRecList_eq]
        simp [subtreesListPre, resOf]
      | cons c rest =>
        exfalso
        simp only [sizeL_cons] at hl
        omega
  | succ N ih =>
    obtain ⟨ihR, ihL⟩ := ih
    refine ⟨?_, ?_⟩
    · intro c hc g env
      rw [match_node_recursive_eq]
      rcases hx : match_node_exact classify g c env with _ | ⟨r, e⟩
      · exact absurd hx (match_node_exact_no_panic classify g c env)
      · have hro := match_node_exact_resOf classify g c env
        rw [hx] at hro
        simp only [resOf, Option.some.injEq] at hro
        rw [subtreesPre_eq, List.find?_cons]
        cases hmb : matchesB classify g c with
        | true =>
          rw [hmb] at hro
          simp only [if_true] at hro
          rw [hro]
          simp [resOf]
        | false =>
          rw [hmb] at hro
          simp only [if_false, Bool.false_eq_true] at hro
          rw [hro]
          simp only []
          have hsz : sizeL c.children ≤ N := by
            have := sizeN_children c
            omega
          exact ihL c.children hsz g e
    · intro cands hl g env
      cases cands with
      | nil =>
        rw [matchRecList_eq]
        simp [subtreesListPre, resOf]
      | cons c rest =>
        simp only [sizeL_cons] at hl
        rw [matchRecList_eq]
        simp only []
        rcases hx : match_node_recursive classify g c env with _ | ⟨r, e⟩
        · exact absurd hx (match_node_recursive_no_panic classify g c env)
        · have hc := ihR c (by omega) g env
          rw [hx] at hc
          simp only [resOf, Option.some.injEq] at hc
          simp only [subtreesListPre, List.find?_append, ← hc]
          cases r with
          | some m => simp [resOf]
          | none =>
            simp only [Option.none_or]
            exact ihL rest (by omega) g e

end Matcher

/-- The kind search, characterized: it returns the first pre-order node
of the requested kind and leaves the environment exactly as given. -/
theorem kindFindSpec : ∀ N : Nat,
    (∀ c, sizeN c + 1 ≤ N → ∀ gk env,
      match_single_kind gk c env =
        ((subtreesPre c).find? (fun s => s.kind == gk), env))
  ∧ (∀ cands, sizeL cands ≤ N → ∀ gk env,
      matchKindList gk cands env =
        ((subtreesListPre cands).find? (fun s => s.kind == gk), env)) := by
  intro N
  induction N with
  | zero =>
    refine ⟨?_, ?_⟩
    · intro c hc
      exfalso
      omega
    · intro cands hl gk env
      cases cands with
      | nil =>
        rw [matchKindList_eq]
        simp [subtreesListPre]
      | cons c rest =>
        exfalso
        simp only [sizeL_cons] at hl
        omega
  | succ N ih =>
    obtain ⟨ihK, ihL⟩ := ih
    refine ⟨?_, ?_⟩
    · intro c hc gk env
      rw [match_single_kind_eq, subtreesPre_eq, List.find?_cons]
      by_cases hk : c.kind = gk
      · simp [hk]
      · have hkb : (c.kind == gk) = false := by
          simp [hk]
        simp only [hk, if_false, hkb]
        have hsz : sizeL c.children ≤ N := by
          have := sizeN_children c
          omega
        exact ihL c.children hsz gk env
    · intro cands hl gk env
      cases cands with
      | nil =>
        rw [matchKindList_eq]
        simp [subtreesListPre]
      | cons c rest =>
        simp only [sizeL_cons] at hl
        rw [matchKindList_eq]
        simp only []
        rw [ihK c (by omega) gk env]
        rcases hf : (subtreesPre c).find? (fun s => s.kind == gk) with _ | m <;>
          simp [hf, subtreesListPre, List.find?_append,
            ihL rest (by omega) gk env]

section Matcher

variable (classify : String → Option MetaVariable)

/-- The forward scan anchors the post-ellipsis sub-pattern `P` at the
first candidate child it matches: all earlier children are skipped, and
the whole match fails when the candidate children are exhausted without a
success. -/
theorem matchScan_dropWhile (P : Node) (rest : List Node) (cr : Node) :
    ∀ cs env, cs ≠ [] →
      resOf (matchScan classify cr (P :: rest) cs env) =
        match cs.dropWhile (fun x => !(matchesB classify P x)) with
        | [] => some none
        | c :: post => resOf (matchStep classify cr (P :: rest) (c :: post) env)
    := by
  intro cs
  induction cs with
  | nil => exact fun env h => absurd rfl h
  | cons c ctl ih =>
    intro env _
    rw [matchScan_eq]
    simp only []
    rcases hx : match_node_exact classify P c env with _ | ⟨r, e⟩
    · exact absurd hx (match_node_exact_no_panic classify P c env)
    · have hro := match_node_exact_resOf classify P c env
      rw [hx] at hro
      simp only [resOf, Option.some.injEq] at hro
      cases hmb : matchesB classify P c with
      | true =>
        rw [hmb] at hro
        simp only [if_true] at hro
        subst hro
        rw [List.dropWhile_cons]
        simp only [hmb, Bool.not_true, Bool.false_eq_true, if_false]
        exact matchStep_env_irrel classify cr (P :: rest) (c :: ctl) e env
      | false =>
        rw [hmb] at hro
        simp only [if_false, Bool.false_eq_true] at hro
        subst hro
        rw [List.dropWhile_cons]
        simp only [hmb, Bool.not_false, if_true]
        cases ctl with
        | nil => rfl
        | cons c2 c2tl =>
          simp only []
          rw [ih e (by simp)]
          rcases (c2 :: c2tl).dropWhile (fun x => !(matchesB classify P x)) with
            _ | ⟨c3, post⟩
          · rfl
          · exact matchStep_env_irrel classify cr (P :: rest) (c3 :: post) e env

mutual

/-- A node none of whose subtree texts is classified as a meta-variable
(no captures and no ellipses anywhere in the tree). -/
def cleanN : Node → Bool
  | .mk _ _ _ t cs => (classify t).isNone && cleanL cs

/-- `cleanN` for every node of a forest. -/
def cleanL : List Node → Bool
  | [] => true
  | c :: rest => cleanN c && cleanL rest

end

theorem cleanN_eq (c : Node) :
    cleanN classify c = ((classify c.text).isNone && cleanL classify c.children)
    := by
  cases c with
  | mk k i nm t cs => rfl

theorem is_ellipsis_of_clean (c : Node) (h : cleanN classify c = true) :
    is_ellipsis classify c = false := by
  rw [cleanN_eq] at h
  simp only [Bool.and_eq_true, Option.isNone_iff_eq_none] at h
  simp [is_ellipsis, extract_var_from_node, h.1]

/-- A meta-variable-free tree always matches itself, with the environment
untouched. -/
theorem selfMatch : ∀ N : Nat,
    (∀ c, sizeN c + 1 ≤ N → cleanN classify c = true → ∀ env,
      match_node_exact classify c c env = .ok (some c) env)
  ∧ (∀ l, sizeL l ≤ N → cleanL classify l = true → l ≠ [] → ∀ cr env,
      matchSeq classify cr l l env = .ok (some cr) env) := by
  intro N
  induction N with
  | zero =>
    refine ⟨?_, ?_⟩
    · intro c hc
      exfalso
      omega
    · intro l hl hcl hne
      cases l with
      | nil => exact absurd rfl hne
      | cons x tl =>
        exfalso
        simp only [sizeL_cons] at hl
        omega
  | succ N ih =>
    obtain ⟨ihN, ihL⟩ := ih
    refine ⟨?_, ?_⟩
    · intro c hc hcl env
      rw [match_node_exact_eq]
      rw [cleanN_eq] at hcl
      simp only [Bool.and_eq_true, Option.isNone_iff_eq_none] at hcl
      by_cases hl : c.is_leaf = true
      · simp only [hl, if_true, match_leaf_meta_var, extract_var_from_node,
          hcl.1]
        simp
      · simp only [hl, if_false, ne_eq, not_true_eq_false, if_false]
        have hch : c.children ≠ [] := children_ne_nil_of_not_leaf c hl
        have hsz : sizeL c.children ≤ N := by
          have := sizeN_children c
          omega
        simp only [not_true_eq_false, Bool.false_eq_true, if_false]
        exact ihL c.children hsz hcl.2 hch c env
    · intro l hl hcl hne cr env
      cases l with
      | nil => exact absurd rfl hne
      | cons x tl =>
        simp only [sizeL_cons] at hl
        simp only [cleanL, Bool.and_eq_true] at hcl
        rw [matchSeq_eq]
        simp only [is_ellipsis_of_clean classify x hcl.1, Bool.false_eq_true,
          if_false]
        rw [matchStep_eq]
        simp only []
        rw [ihN x (by omega) hcl.1 env]
        cases tl with
        | nil => rfl
        | cons y ytl =>
          simp only []
          exact ihL (y :: ytl) (by omega) hcl.2 (by simp) cr env

end Matcher

/-- A concrete classifier satisfying the external contract of the
meta-variable classifier (pure and total; a bare `$$$` marks an anonymous
ellipsis, `$$$` followed by a name a named ellipsis, `$_` an anonymous
single wildcard, `$` followed by a name a named single wildcard), used to
evaluate concrete instances.  The matcher itself treats the classifier as
an opaque parameter, so every universal theorem above holds for any
classifier. -/
def testClassify : String → Option MetaVariable := fun s =>
  if s = "$$$" then some .Ellipsis
  else if s = "$$$A" then some (.NamedEllipsis "A")
  else if s = "$_" then some .Anonymous
  else if s = "$A" then some (.Named "A")
  else none

/-! Concrete trees used by the claim instances. -/

def tokA : Node := .mk "identifier" 3 true "a" []

def tokB : Node := .mk "identifier" 3 true "b" []

def c1goal : Node := .mk "stmt" 0 true "a" [tokA]

def c1cand : Node := .mk "stmt" 0 true "a b" [tokA, tokB]

def ellLeaf : Node := .mk "identifier" 2 true "$$$" []

def c2goal : Node := .mk "arguments" 1 true "$$$" [ellLeaf]

def c2cand : Node := .mk "arguments" 1 true "" []

def c3n1 : Node := .mk "identifier" 11 true "n1" []

def c3y : Node := .mk "identifier" 11 true "y" []

def c3x : Node := .mk "identifier" 11 true "x" []

def c3dA : Node := .mk "identifier" 11 true "$A" []

def c3P : Node := .mk "pair" 20 true "($A, x)" [c3dA, c3x]

def c3c1 : Node := .mk "pair" 20 true "(n1, y)" [c3n1, c3y]

def c3ell : Node := .mk "identifier" 11 true "$$$" []

def c3goal : Node := .mk "call" 10 true "g" [c3ell, c3P]

def c3cand : Node := .mk "call" 10 true "c" [c3c1]

def fId : Node := .mk "identifier" 11 true "f" []

def lparen : Node := .mk "(" 13 false "(" []

def comma : Node := .mk "," 14 false "," []

def rparen : Node := .mk ")" 15 false ")" []

def aId : Node := .mk "identifier" 11 true "a" []

def bId : Node := .mk "identifier" 11 true "b" []

def cId : Node := .mk "identifier" 11 true "c" []

def mvEll : Node := .mk "identifier" 11 true "$$$" []

def c4args : Node :=
  .mk "arguments" 12 true "($$$, a, b, c)"
    [lparen, mvEll, comma, aId, comma, bId, comma, cId, rparen]

def c4goal : Node := .mk "call" 10 true "f($$$, a, b, c)" [fId, c4args]

def c4argsC : Node := .mk "arguments" 12 true "(b, c)" [lparen, bId, comma, cId, rparen]

def c4cand : Node := .mk "call" 10 true "f(b, c)" [fId, c4argsC]

def mvAnon : Node := .mk "identifier" 9 true "$_" []

def ell9 : Node := .mk "identifier" 9 true "$$$" []

def tokQ : Node := .mk "identifier" 9 true "q" []

def tokR : Node := .mk "identifier" 9 true "r" []

def c5mis : Node := .mk "call" 8 true "t" [ell9, mvAnon, tokQ, tokR]

def c5meta : Node := .mk "identifier" 11 true "$A" []

def c5clean : Node := .mk "stmt" 0 true "a" [tokA]

/-!
# Claim theorems
-/

/-- C1 counterexample: the claim is false on the code — with goal
children `[a]` (no terminal ellipsis) and candidate children `[a, b]`,
the last goal child `a` matches the first candidate child while the
candidate child `b` remains after the anchor, yet the overall match
SUCCEEDS (lines 116-119 return `Some(candidate)` as soon as the goal
cursor is exhausted, without checking leftover candidate children). -/
theorem c1_counterexample :
    match_node_exact testClassify c1goal c1cand [] = .ok (some c1cand) [] := rfl

/-- C1 (amended): whenever the child-sequence loop stands at the LAST
goal child (so the goal child sequence has no ellipsis in terminal
position — `matchStep` and the non-ellipsis branch of `matchSeq` are
exactly the paths the loop takes for a non-ellipsis goal child, whether
reached by a 1:1 step or as a forward-scan anchor at any candidate
position) and that last goal child matches the current candidate child,
the loop returns overall success even when arbitrarily many further
candidate children remain after the anchor: leftover candidate children
are permitted, because lines 116-119 return `Some(candidate)` as soon as
the goal cursor is exhausted, without examining the candidate cursor. -/
theorem c1_last_child_leftover_permitted :
    (∀ (classify : String → Option MetaVariable) (cr g c : Node)
        (ctl : List Node) (env env1 : Env) (m : Node),
      match_node_exact classify g c env = .ok (some m) env1 →
      matchStep classify cr [g] (c :: ctl) env = .ok (some cr) env1)
  ∧ (∀ (classify : String → Option MetaVariable) (cr g c : Node)
        (ctl : List Node) (env env1 : Env) (m : Node),
      is_ellipsis classify g = false →
      match_node_exact classify g c env = .ok (some m) env1 →
      matchSeq classify cr [g] (c :: ctl) env = .ok (some cr) env1) := by
  constructor
  · intro classify cr g c ctl env env1 m hmatch
    rw [matchStep_eq]
    simp only []
    rw [hmatch]
  · intro classify cr g c ctl env env1 m hellip hmatch
    rw [matchSeq_eq]
    simp only [hellip, Bool.false_eq_true, if_false]
    rw [matchStep_eq]
    simp only []
    rw [hmatch]

/-- C1 witness: both parts of the amended theorem at a concrete instance
with a leftover candidate child after the anchor. -/
theorem c1_last_child_leftover_permitted_witness :
    is_ellipsis testClassify tokA = false ∧
    match_node_exact testClassify tokA tokA [] = .ok (some tokA) [] ∧
    matchStep testClassify c1cand [tokA] (tokA :: [tokB]) [] =
      .ok (some c1cand) [] ∧
    matchSeq testClassify c1cand [tokA] (tokA :: [tokB]) [] =
      .ok (some c1cand) [] :=
  ⟨rfl, rfl,
    c1_last_child_leftover_permitted.1 testClassify c1cand tokA tokA [tokB]
      [] [] tokA rfl,
    c1_last_child_leftover_permitted.2 testClassify c1cand tokA tokA [tokB]
      [] [] tokA rfl rfl⟩

/-- C2 counterexample: the claimed exception is false on the code — a
goal pattern consisting solely of one ellipsis matched against a
candidate with an empty child list FAILS (line 72's
`cand_children.peek()?` fires before the goal children are examined; there
is no special case). -/
theorem c2_counterexample :
    match_node_exact testClassify c2goal c2cand [] = .ok none [] := rfl

/-- C2 (amended): for every goal node that has children and every
candidate node with no children, match_exact fails immediately with the
environment untouched — with no exception: even a goal consisting solely
of one ellipsis fails against an empty candidate child list. -/
theorem c2_childless_candidate_fails
    (classify : String → Option MetaVariable) (goal candidate : Node)
    (env : Env) (hg : goal.children ≠ []) (hc : candidate.children = []) :
    match_node_exact classify goal candidate env = .ok none env := by
  rw [match_node_exact_eq]
  have hleaf : goal.is_leaf = false := by
    unfold Node.is_leaf
    cases hgc : goal.children with
    | nil => exact absurd hgc hg
    | cons x xs => rfl
  simp only [hleaf, Bool.false_eq_true, if_false, hc]
  by_cases hk : goal.kind_id = candidate.kind_id
  · simp only [hk, ne_eq, not_true_eq_false, if_false]
    rw [matchSeq_eq]
  · simp [hk]

/-- C2 witness: the amended theorem at the pure-ellipsis instance. -/
theorem c2_childless_candidate_fails_witness :
    c2goal.children ≠ [] ∧ c2cand.children = [] ∧
    match_node_exact testClassify c2goal c2cand [] = .ok none [] :=
  ⟨by simp [c2goal, Node.children], rfl,
    c2_childless_candidate_fails testClassify c2goal c2cand []
      (by simp [c2goal, Node.children]) rfl⟩

/-- C3: capture-environment writes are not transactional — (i) no
matching call (exact or recursive) ever removes an entry from the
environment, and (ii) concretely, during the ellipsis forward scan of
`g = call($$$, pair($A, x))` against `call(pair(n1, y))`, the sub-match
of `pair($A, x)` against `pair(n1, y)` fails after inserting `A ↦ n1`,
and that binding remains in the environment of the failed overall match
(it is not rolled back). -/
theorem c3_nontransactional_env :
    (∀ (classify : String → Option MetaVariable) (g c : Node) (env : Env),
      keepsEnv env (match_node_exact classify g c env))
  ∧ (∀ (classify : String → Option MetaVariable) (g c : Node) (env : Env),
      keepsEnv env (match_node_recursive classify g c env))
  ∧ match_node_exact testClassify c3P c3c1 [] = .ok none [("A", c3n1)]
  ∧ match_node_exact testClassify c3goal c3cand [] = .ok none [("A", c3n1)] :=
  ⟨match_node_exact_keeps, match_node_recursive_keeps, rfl, rfl⟩

/-- C3 witness: key preservation applied at a concrete environment with a
pre-existing entry, across a failing sub-match that inserts a binding. -/
theorem c3_nontransactional_env_witness :
    (Env.lookup [("B", c3x)] "B").isSome = true ∧
    (Env.lookup [("B", c3x), ("A", c3n1)] "B").isSome = true := by
  refine ⟨rfl, ?_⟩
  have h := c3_nontransactional_env.1 testClassify c3P c3c1 [("B", c3x)]
  rw [show match_node_exact testClassify c3P c3c1 [("B", c3x)] =
    .ok none [("B", c3x), ("A", c3n1)] from rfl] at h
  exact h "B" rfl

/-- C4: when the goal cursor holds an ellipsis followed (after skipping
unnamed goal children) by a concrete sub-pattern `P`, the sequence loop
scans the candidate children forward one at a time, anchoring `P` at the
first candidate child it matches (all earlier children are skipped), and
the whole match fails if the candidate children are exhausted with no
success; in particular `f($$$, a, b, c)` does not match `f(b, c)`. -/
theorem c4_ellipsis_forward_scan :
    (∀ (classify : String → Option MetaVariable) (cr g P : Node)
        (gtl rest ctl : List Node) (c : Node) (env : Env),
      is_ellipsis classify g = true →
      skipUnnamed gtl = P :: rest →
      is_ellipsis classify P = false →
      resOf (matchSeq classify cr (g :: gtl) (c :: ctl) env) =
        match (c :: ctl).dropWhile (fun x => !(matchesB classify P x)) with
        | [] => some none
        | c' :: post =>
          resOf (matchStep classify cr (P :: rest) (c' :: post) env))
  ∧ match_node_exact testClassify c4goal c4cand [] = .ok none [] := by
  constructor
  · intro classify cr g P gtl rest ctl c env hg hsk hP
    rw [matchSeq_eq]
    simp only [hg, if_true, hsk, hP, Bool.false_eq_true, if_false]
    exact matchScan_dropWhile classify P rest cr (c :: ctl) env (by simp)
  · rfl

/-- C4 witness: the forward-scan characterization at a concrete instance
(the argument list of `f($$$, a, b, c)` scanned over that of `f(b, c)`). -/
theorem c4_ellipsis_forward_scan_witness :
    is_ellipsis testClassify mvEll = true ∧
    skipUnnamed [comma, aId, comma, bId, comma, cId, rparen] =
      aId :: [comma, bId, comma, cId, rparen] ∧
    is_ellipsis testClassify aId = false ∧
    resOf (matchSeq testClassify c4argsC
        (mvEll :: [comma, aId, comma, bId, comma, cId, rparen])
        (bId :: [comma, cId, rparen]) []) =
      match (bId :: [comma, cId, rparen]).dropWhile
          (fun x => !(matchesB testClassify aId x)) with
      | [] => some none
      | c' :: post =>
        resOf (matchStep testClassify c4argsC
          (aId :: [comma, bId, comma, cId, rparen]) (c' :: post) []) :=
  ⟨rfl, rfl, rfl,
    c4_ellipsis_forward_scan.1 testClassify c4argsC mvEll aId
      [comma, aId, comma, bId, comma, cId, rparen]
      [comma, bId, comma, cId, rparen] [comma, cId, rparen] bId []
      rfl rfl rfl⟩

/-- C5 counterexample: the round-trip claim is false on the code — for
the candidate `c5mis = call($$$, $_, q, r)` (whose own text contains
meta-variable forms), `match_exact(c5mis, c5mis, ∅)` FAILS (the greedy
forward scan anchors the pattern `$_` at the candidate's `$$$` child and
the remaining children then mismatch), and for the candidate `$A`,
`match_exact($A, $A, ∅)` succeeds but writes `A ↦ $A` into the
environment, so the environment is NOT unchanged. -/
theorem c5_counterexample :
    match_node_exact testClassify c5mis c5mis [] = .ok none [] ∧
    match_node_exact testClassify c5meta c5meta [] =
      .ok (some c5meta) [("A", c5meta)] := ⟨rfl, rfl⟩

/-- C5 (amended): for every candidate node `c` in which no subtree's text
classifies as a meta-variable, `match_exact(c, c, env)` succeeds
returning `c` with `env` unchanged. -/
theorem c5_self_match (classify : String → Option MetaVariable) (c : Node)
    (env : Env) (h : cleanN classify c = true) :
    match_node_exact classify c c env = .ok (some c) env :=
  (selfMatch classify (sizeN c + 1)).1 c (Nat.le_refl _) h env

/-- C5 witness: the amended round-trip at a concrete meta-variable-free
tree. -/
theorem c5_self_match_witness :
    cleanN testClassify c5clean = true ∧
    match_node_exact testClassify c5clean c5clean [] =
      .ok (some c5clean) [] :=
  ⟨rfl, c5_self_match testClassify c5clean [] rfl⟩

/-- C6: for every leaf goal node whose text classifies as `Named name`
and every candidate node whatsoever, match_exact succeeds, returns the
candidate, and inserts exactly the binding `env[name] = candidate`. -/
theorem c6_named_wildcard (classify : String → Option MetaVariable)
    (goal candidate : Node) (env : Env) (name : String)
    (hleaf : goal.children = [])
    (hcl : classify goal.text = some (.Named name)) :
    match_node_exact classify goal candidate env =
      .ok (some candidate) (env.insert name candidate) := by
  rw [match_node_exact_eq]
  have hl : goal.is_leaf = true := by simp [Node.is_leaf, hleaf]
  simp [hl, match_leaf_meta_var, extract_var_from_node, hcl]

/-- C6 witness: the `$A` wildcard capturing a concrete two-child
candidate node. -/
theorem c6_named_wildcard_witness :
    c5meta.children = [] ∧
    testClassify c5meta.text = some (.Named "A") ∧
    match_node_exact testClassify c5meta c1cand [] =
      .ok (some c1cand) [("A", c1cand)] :=
  ⟨rfl, rfl, c6_named_wildcard testClassify c5meta c1cand [] "A" rfl rfl⟩

/-- C7: for every leaf goal node whose text classifies as `None` (an
ordinary literal token) and every candidate node, match_exact succeeds
iff the `kind_id`s and the texts both agree, with the environment
untouched; absence of a meta-variable is not itself a failure. -/
theorem c7_literal_leaf (classify : String → Option MetaVariable)
    (goal candidate : Node) (env : Env)
    (hleaf : goal.children = []) (hcl : classify goal.text = none) :
    match_node_exact classify goal candidate env =
      .ok (if goal.kind_id = candidate.kind_id ∧ goal.text = candidate.text
        then some candidate else none) env := by
  rw [match_node_exact_eq]
  have hl : goal.is_leaf = true := by simp [Node.is_leaf, hleaf]
  simp only [hl, if_true, match_leaf_meta_var, extract_var_from_node, hcl]
  by_cases hk : goal.kind_id = candidate.kind_id
  · by_cases ht : goal.text = candidate.text <;> simp [hk, ht]
  · simp [hk]

/-- C7 witness: a literal leaf matched against itself (succeeds) — the
if-condition holds and the environment is untouched. -/
theorem c7_literal_leaf_witness :
    tokA.children = [] ∧ testClassify tokA.text = none ∧
    match_node_exact testClassify tokA tokA [] =
      .ok (if tokA.kind_id = tokA.kind_id ∧ tokA.text = tokA.text
        then some tokA else none) [] :=
  ⟨rfl, rfl, c7_literal_leaf testClassify tokA tokA [] rfl rfl⟩

/-- C8: `match_node_recursive` is the pre-order first-match search — its
outcome is exactly the first node of the candidate's pre-order subtree
list (the candidate itself first, then the children's subtrees in source
order) that `match_node_exact` accepts, `none` exactly when no subtree
matches, and at most one match is reported. -/
theorem c8_recursive_preorder (classify : String → Option MetaVariable)
    (goal candidate : Node) (env : Env) :
    resOf (match_node_recursive classify goal candidate env) =
      some ((subtreesPre candidate).find?
        (fun s => matchesB classify goal s)) :=
  (recFindSpec classify (sizeN candidate + 1)).1 candidate (Nat.le_refl _)
    goal env

/-- C9: `match_single_kind` returns the first pre-order node whose `kind`
equals the requested kind (or `none`), and leaves the capture environment
exactly as it was. -/
theorem c9_kind_search_capture_free (goal_kind : String) (candidate : Node)
    (env : Env) :
    match_single_kind goal_kind candidate env =
      ((subtreesPre candidate).find? (fun s => s.kind == goal_kind), env) :=
  (kindFindSpec (sizeN candidate + 1)).1 candidate (Nat.le_refl _)
    goal_kind env

/-- C10: for every classifier, goal (including ill-formed patterns),
candidate, and environment, the entry points totally evaluate to a
normal `Some`/`None` result — no internal `unwrap()` or assertion is ever
reached (the `panicked` state, which models exactly those `unwrap()`
calls, is unreachable); `match_single_kind` is total by construction
(its result type has no panic state). -/
theorem c10_no_crash (classify : String → Option MetaVariable)
    (g c : Node) (env : Env) :
    match_node_exact classify g c env ≠ .panicked ∧
    match_node_recursive classify g c env ≠ .panicked :=
  ⟨match_node_exact_no_panic classify g c env,
   match_node_recursive_no_panic classify g c env⟩
